import Mathlib

/-!
# Verification of the tube-timing departure engine

Shallow embedding of `src/tube_timing/departures.py` and the
departure-ordering / destination-canonicalization parts of
`src/tube_timing/cli.py`, together with proofs settling the frozen claims.

Modelling conventions:
* Python strings are `List Char`.  `str.lower` is modelled with
  `Char.toLower` (ASCII case mapping; all characters outside `[a-z0-9]`
  are collapsed to spaces by `normalize_name` in both Python and the
  model, so the difference is immaterial for the functions studied here).
* Zone-aware datetimes are rationals counting seconds; a calendar date is
  the integer day number (day length 86400 s, one fixed zone, matching the
  engine's single-zone operation).  Day 0 is a Thursday, mirroring the
  Unix epoch.
* Python floats are idealized as exact rationals.
* Code that can raise an uncaught exception is modelled in
  `Except Unit`; `.error ()` marks an escaping `ValueError`/`TypeError`.
* Bounded loops written `while` in Python are given explicit structural
  fuel that provably dominates the number of iterations, so every
  definition evaluates by kernel reduction.
-/

namespace TubeTiming

/-- Python `\s` on the ASCII range (the engine only ever feeds it ASCII). -/
def isWs (c : Char) : Bool :=
  c = ' ' || c = '\t' || c = '\n' || c = '\r' || c = '\x0b' || c = '\x0c'

/-- Characters kept by the regex class `[a-z0-9]` of `normalize_name`. -/
def isAlnumLower (c : Char) : Bool :=
  ('a' ≤ c && c ≤ 'z') || ('0' ≤ c && c ≤ '9')

/-- ASCII decimal digit. -/
def isDigit (c : Char) : Bool := '0' ≤ c && c ≤ '9'

/-!
### Kernel-computable rational arithmetic

The standard `Rat` operations are `@[irreducible]`, which blocks `decide`.
The engine's datetime arithmetic is therefore expressed through the
following `mkRat`-based wrappers; each is proved equal to the standard
operation (see the bridge lemmas below the definitions), so all order
lemmas of `ℚ` apply unchanged. -/

def intToQ (n : Int) : ℚ := mkRat n 1

def qAdd (a b : ℚ) : ℚ := mkRat (a.num * b.den + b.num * a.den) (a.den * b.den)

def qSub (a b : ℚ) : ℚ := mkRat (a.num * b.den - b.num * a.den) (a.den * b.den)

def qMul (a b : ℚ) : ℚ := mkRat (a.num * b.num) (a.den * b.den)

def qNeg (a : ℚ) : ℚ := mkRat (-a.num) a.den

def qAbs (a : ℚ) : ℚ := mkRat (a.num.natAbs : Int) a.den

/-- `a / b` (with the `ℚ` convention `a / 0 = 0`, unused by the engine). -/
def qDiv (a b : ℚ) : ℚ := mkRat (a.num * b.den * b.num.sign) (a.den * b.num.natAbs)

def qLeB (a b : ℚ) : Bool := decide (a.num * (b.den : Int) ≤ b.num * (a.den : Int))

def qLtB (a b : ℚ) : Bool := decide (a.num * (b.den : Int) < b.num * (a.den : Int))

def qMax (a b : ℚ) : ℚ := if qLeB a b then b else a

/-- `math.floor` on an exact rational. -/
def qFloorI (a : ℚ) : Int := a.num / (a.den : Int)

/-- `re.sub(r"[^a-z0-9]+", " ", ·)`: each maximal run of characters outside
`[a-z0-9]` becomes a single space.  The boolean state records whether the
previous character belonged to such a run. -/
def collapseRuns : Bool → List Char → List Char
  | _, [] => []
  | inRun, c :: rest =>
    if isAlnumLower c then c :: collapseRuns false rest
    else if inRun then collapseRuns true rest
    else ' ' :: collapseRuns true rest

/-- Left-to-right, non-overlapping `str.replace`.  The fuel equals the
length of the subject string; one character (at least) is consumed per
step, so the fuel never runs out for the non-empty patterns used here. -/
def replaceAllF (pat repl : List Char) : Nat → List Char → List Char
  | 0, s => s
  | _ + 1, [] => []
  | fuel + 1, c :: rest =>
    if pat ≠ [] ∧ pat.isPrefixOf (c :: rest) then
      repl ++ replaceAllF pat repl fuel ((c :: rest).drop pat.length)
    else
      c :: replaceAllF pat repl fuel rest

/-- `str.replace(pat, repl)`. -/
def replaceAll (pat repl s : List Char) : List Char :=
  replaceAllF pat repl s.length s

/-- Worker for `splitWs`: `cur` is the reversed word being accumulated. -/
def splitWsAux : List Char → List Char → List (List Char)
  | cur, [] => if cur.isEmpty then [] else [cur.reverse]
  | cur, c :: rest =>
    if isWs c then
      (if cur.isEmpty then [] else [cur.reverse]) ++ splitWsAux [] rest
    else splitWsAux (c :: cur) rest

/-- `str.split()` with no separator: split on whitespace runs, dropping
empty pieces. -/
def splitWs (s : List Char) : List (List Char) := splitWsAux [] s

/-- `" ".join(words)`. -/
def joinSpace (ws : List (List Char)) : List Char := List.intercalate [' '] ws

/-- `str.strip()` (ASCII whitespace). -/
def pyStrip (s : List Char) : List Char :=
  ((s.dropWhile isWs).reverse.dropWhile isWs).reverse

/-- `departures.normalize_name`:
lowercase, collapse every `[^a-z0-9]+` run to one space, then replace the
literal substrings `" underground station "` and `" station "` (note the
surrounding spaces) by `" "`, and re-join on whitespace. -/
def normalize_name (value : List Char) : List Char :=
  let text := collapseRuns false (value.map Char.toLower)
  let text := replaceAll " underground station ".data " ".data text
  let text := replaceAll " station ".data " ".data text
  joinSpace (splitWs text)

/-- Python `needle in haystack` for strings: substring containment. -/
def containsSub (haystack needle : List Char) : Bool :=
  match haystack with
  | [] => needle.isEmpty
  | _ :: rest => needle.isPrefixOf haystack || containsSub rest needle

/-- JSON-like Python value, the payload type of the feed decoders. -/
inductive JsonValue where
  | null
  | bool (b : Bool)
  | num (q : ℚ)
  | str (s : List Char)
  | arr (items : List JsonValue)
  | obj (fields : List (List Char × JsonValue))

/-- Python truthiness of a `JsonValue`. -/
def truthy : JsonValue → Bool
  | .null => false
  | .bool b => b
  | .num q => q ≠ 0
  | .str s => !s.isEmpty
  | .arr l => !l.isEmpty
  | .obj f => !f.isEmpty

/-- `dict.get(key)` (returns Python `None`, i.e. `.null`, when the key is
absent or the receiver is not a dict). -/
def JsonValue.get : JsonValue → List Char → JsonValue
  | .obj fields, k => (fields.lookup k).getD .null
  | _, _ => .null

/-- `dict.get(key, default)`. -/
def JsonValue.getD : JsonValue → List Char → JsonValue → JsonValue
  | .obj fields, k, d => (fields.lookup k).getD d
  | _, _, d => d

/-- `key in dict`. -/
def JsonValue.hasKey : JsonValue → List Char → Bool
  | .obj fields, k => (fields.lookup k).isSome
  | _, _ => false

/-- `x or y` on Python values: `x` if truthy, else `y`. -/
def pyOr (a b : JsonValue) : JsonValue := if truthy a then a else b

def JsonValue.isArr : JsonValue → Bool
  | .arr _ => true
  | _ => false

def JsonValue.isObj : JsonValue → Bool
  | .obj _ => true
  | _ => false

/-- Value of an ASCII digit string (`none` if empty or non-digit). -/
def parseNatDigits (ds : List Char) : Option Nat :=
  if ds.isEmpty || !ds.all isDigit then none
  else some (ds.foldl (fun acc c => acc * 10 + (c.toNat - '0'.toNat)) 0)

/-- Python `int(string)`: optional sign around a digit string; raises
(`.error`) otherwise. -/
def pyIntOfStr (s : List Char) : Except Unit Int :=
  match pyStrip s with
  | '+' :: ds => match parseNatDigits ds with
    | some n => .ok (n : Int)
    | none => .error ()
  | '-' :: ds => match parseNatDigits ds with
    | some n => .ok (-(n : Int))
    | none => .error ()
  | ds => match parseNatDigits ds with
    | some n => .ok (n : Int)
    | none => .error ()

/-- Python `int(x)` for feed values: floats truncate toward zero, strings
must be integer literals, anything else raises. -/
def pyInt : JsonValue → Except Unit Int
  | .num q => .ok (q.num.tdiv (q.den : Int))
  | .bool b => .ok (if b then 1 else 0)
  | .str s => pyIntOfStr s
  | _ => .error ()

/-- Python `float(string)`: optional sign, digits with an optional single
decimal point (the only float syntax the feeds use); raises otherwise. -/
def pyFloatOfStr (s : List Char) : Except Unit ℚ :=
  let core : List Char → Except Unit ℚ := fun t =>
    match t.splitOn '.' with
    | [ds] => match parseNatDigits ds with
      | some n => .ok (intToQ n)
      | none => .error ()
    | [ds, fs] =>
      if ds.isEmpty && fs.isEmpty then .error ()
      else if (ds.isEmpty || ds.all isDigit) && (fs.isEmpty || fs.all isDigit) then
        match parseNatDigits (ds ++ fs) with
        | some n => .ok (mkRat n (10 ^ fs.length))
        | none => .error ()
      else .error ()
    | _ => .error ()
  match pyStrip s with
  | '+' :: t => core t
  | '-' :: t => (core t).map qNeg
  | t => core t

/-- Python `float(x)` (floats idealized as rationals). -/
def pyFloat : JsonValue → Except Unit ℚ
  | .num q => .ok q
  | .bool b => .ok (if b then intToQ 1 else intToQ 0)
  | .str s => pyFloatOfStr s
  | _ => .error ()

/-- Decimal representation of an integer. -/
def intRepr (n : Int) : List Char :=
  if n < 0 then '-' :: (Nat.toDigits 10 n.natAbs) else Nat.toDigits 10 n.natAbs

/-- Python `str(x)`.  Integral numbers print without a decimal point (the
feeds only ever stringify ids and timestamps); containers get an opaque
non-empty placeholder. -/
def pyStr : JsonValue → List Char
  | .str s => s
  | .num q => if q.den = 1 then intRepr q.num else intRepr q.num ++ "/".data ++ intRepr (q.den : Int)
  | .bool b => if b then "True".data else "False".data
  | .null => "None".data
  | .arr _ => "[...]".data
  | .obj _ => "{...}".data

/-- Python iteration `for x in v`: lists yield elements, dicts their keys,
strings their characters; other values raise `TypeError`. -/
def pyIter : JsonValue → Except Unit (List JsonValue)
  | .arr l => .ok l
  | .obj fields => .ok (fields.map (fun kv => .str kv.1))
  | .str s => .ok (s.map (fun c => .str [c]))
  | _ => .error ()

/-- The `while hour >= 24` loop of `_combine_hour_minute`, with structural
fuel: each pass removes 24 from `hour`, so `hour.toNat` passes always
suffice. -/
def rollHourAux : Nat → Int → Int → Int × Int
  | 0, h, d => (h, d)
  | fuel + 1, h, d => if 24 ≤ h then rollHourAux fuel (h - 24) (d + 1) else (h, d)

def rollHour (h : Int) : Int × Int := rollHourAux h.toNat h 0

/-- `datetime.time(hour, minute)` as seconds past midnight; raises on
out-of-range values exactly like the Python constructor. -/
def timeOfDaySecs (h m : Int) : Except Unit Int :=
  if 0 ≤ h ∧ h < 24 ∧ 0 ≤ m ∧ m < 60 then .ok (h * 3600 + m * 60)
  else .error ()

/-- `departures._combine_hour_minute` (`today` is the integer day number):
hours ≥ 24 roll into following days, then `datetime.combine` anchors the
time of day on that date. -/
def combine_hour_minute (hour minute : Int) (today : Int) : Except Unit ℚ := do
  let p := rollHour hour
  let t ← timeOfDaySecs p.1 minute
  return intToQ ((today + p.2) * 86400 + t)

/-- `departures.parse_time_of_day`: `HHMM`/`HMM` digit strings or colon
strings.  `int(...)` and `datetime.time(...)` may raise, and those errors
escape, exactly as in the source. -/
def parse_time_of_day (value : List Char) (today : Int) : Except Unit (Option ℚ) := do
  let text := pyStrip value
  if text.isEmpty then return none
  else if text.all isDigit && (text.length = 3 || text.length = 4) then
    let hours ← pyIntOfStr (text.take (text.length - 2))
    let minutes ← pyIntOfStr (text.drop (text.length - 2))
    let when ← combine_hour_minute hours minutes today
    return some when
  else if text.contains ':' then
    let parts := text.splitOn ':'
    if parts.length ≥ 2 then
      let hours ← pyIntOfStr (parts.getD 0 [])
      let minutes ← pyIntOfStr (parts.getD 1 [])
      let when ← combine_hour_minute hours minutes today
      return some when
    else return none
  else return none

/-- `departures.parse_time_value`: structured `{hour, minute}` dicts, else
strings via `parse_time_of_day`. -/
def JsonValue.isNull : JsonValue → Bool
  | .null => true
  | _ => false

def parse_time_value (value : JsonValue) (today : Int) : Except Unit (Option ℚ) := do
  if value.isObj && !(value.get "hour".data).isNull && !(value.get "minute".data).isNull then
    let h ← pyInt (value.get "hour".data)
    let m ← pyInt (value.get "minute".data)
    let when ← combine_hour_minute h m today
    return some when
  else if let .str s := value then parse_time_of_day s today
  else return none

/-- `departures.parse_iso_datetime`, parameterized by an oracle `iso`
modelling the standard library's `datetime.fromisoformat` (returning
`none` where the library raises `ValueError`).  All datetimes live in the
one engine zone, so the final `astimezone` is the identity. -/
def parse_iso_datetime (iso : List Char → Option ℚ) (value : List Char) : Option ℚ :=
  if value.isEmpty then none
  else iso (replaceAll "Z".data "+00:00".data value)

/-- The `Departure` value object.  `stops` (a Python `frozenset`) is kept
as a duplicate-free list; no studied function depends on its order. -/
structure Departure where
  when : ℚ
  destination : List Char
  source : List Char
  line : Option (List Char) := none
  stops : Option (List (List Char)) := none
  direction : Option (List Char) := none
deriving DecidableEq

/-- The string tag carried by live departures. -/
def liveTag : List Char := "live".data

/-- The string tag carried by scheduled departures (the source spells it
`"timetable"`; the spec calls this enum value `scheduled`). -/
def timetableTag : List Char := "timetable".data

/-- `sorted(l, key=lambda dep: dep.when)`: stable ascending sort. -/
def sortByWhen (l : List Departure) : List Departure :=
  l.insertionSort (fun a b => qLeB a.when b.when = true)

/-- `departures._similar_destination`. -/
def similar_destination (left right : List Char) : Bool :=
  if left.isEmpty || right.isEmpty then false
  else
    let left_norm := normalize_name left
    let right_norm := normalize_name right
    containsSub right_norm left_norm || containsSub left_norm right_norm

/-- `departures._is_duplicate`. -/
def is_duplicate (candidate : Departure) (live : List Departure) : Bool :=
  live.any (fun item =>
    qLeB (qAbs (qSub item.when candidate.when)) (intToQ 90) &&
      similar_destination item.destination candidate.destination)

/-- `departures.merge_departures`: keep all of `live`, append the
non-duplicate scheduled entries, sort by `when`. -/
def merge_departures (live timetable : List Departure) : List Departure :=
  sortByWhen (live ++ timetable.filter (fun scheduled => !is_duplicate scheduled live))

/-- Worker for `dedupe_departures`; `seen` is the set of keys kept so far. -/
def dedupeAux : List (ℚ × List Char) → List Departure → List Departure
  | _, [] => []
  | seen, item :: rest =>
    let key := (item.when, normalize_name item.destination)
    if seen.contains key then dedupeAux seen rest
    else item :: dedupeAux (key :: seen) rest

/-- `departures._dedupe_departures`: keep the first entry for each
`(when, normalize_name destination)` pair. -/
def dedupe_departures (l : List Departure) : List Departure := dedupeAux [] l

/-! ## cli.py: alias tables and destination canonicalization -/

/-- `cli.BASE_TOWARDS_ALIASES` (the `TUBE_TIMING_TOWARDS_ALIASES`
environment override is outside the engine; it is modelled unset, so
`get_towards_aliases` returns exactly this base table). -/
def BASE_TOWARDS_ALIASES : List (List Char × List (List Char)) :=
  [("battersea power station".data, ["battersea".data]),
   ("charing cross".data, ["cx".data, "chx".data]),
   ("saint".data, ["st".data]),
   ("st".data, ["saint".data])]

/-- `cli.get_towards_aliases` with the environment variable unset. -/
def get_towards_aliases : List (List Char × List (List Char)) :=
  BASE_TOWARDS_ALIASES

/-- `cli.TOWARDS_DISPLAY_OVERRIDES`. -/
def TOWARDS_DISPLAY_OVERRIDES : List (List Char × List Char) :=
  [("battersea power station".data, "Battersea Power Station".data),
   ("charing cross".data, "Charing Cross".data)]

/-- Python-dict insertion: overwrite an existing binding in place, else
append (preserving Python's insertion-order iteration). -/
def dictInsert {β : Type} (m : List (List Char × β)) (key : List Char) (val : β) :
    List (List Char × β) :=
  if (m.lookup key).isSome then
    m.map (fun kv => if kv.1 = key then (key, val) else kv)
  else m ++ [(key, val)]

/-- `cli.build_alias_canonical_map`: `canonical[key] = key` then
`canonical[alias] = key` for each alias, in table order (later bindings
overwrite earlier ones, as for a Python dict). -/
def build_alias_canonical_map (aliases : List (List Char × List (List Char))) :
    List (List Char × List Char) :=
  aliases.foldl (fun m kv =>
    kv.2.foldl (fun m a => dictInsert m a kv.1) (dictInsert m kv.1 kv.1)) []

/-- Try to match `\s+via\s+` (case-insensitive) at the head of `s`, whose
first character the caller knows to be whitespace; returns the text after
the match. -/
def tryViaHere (s : List Char) : Option (List Char) :=
  match s.dropWhile isWs with
  | a :: b :: c :: rest =>
    if a.toLower = 'v' && b.toLower = 'i' && c.toLower = 'a' then
      match rest with
      | d :: rest2 => if isWs d then some ((d :: rest2).dropWhile isWs) else none
      | [] => none
    else none
  | _ => none

/-- Leftmost match of `re.split(r"\s+via\s+", ·, maxsplit=1, flags=I)`:
`some (before, after)` on a match, `none` otherwise. -/
def findViaSplit : List Char → Option (List Char × List Char)
  | [] => none
  | c :: rest =>
    if isWs c then
      match tryViaHere (c :: rest) with
      | some tail => some ([], tail)
      | none => (findViaSplit rest).map (fun p => (c :: p.1, p.2))
    else (findViaSplit rest).map (fun p => (c :: p.1, p.2))

/-- `cli.split_destination_via`. -/
def split_destination_via (value : List Char) : List Char × List Char :=
  match findViaSplit value with
  | some (d, v) => (pyStrip d, pyStrip v)
  | none => (pyStrip value, [])

/-- `cli.canonicalize_display_destination`. -/
def canonicalize_display_destination (value : List Char) : List Char :=
  let p := split_destination_via value
  let cmap := build_alias_canonical_map get_towards_aliases
  let dest_norm := normalize_name p.1
  let dest_key := (cmap.lookup dest_norm).getD dest_norm
  let display_dest := (TOWARDS_DISPLAY_OVERRIDES.lookup dest_key).getD (pyStrip p.1)
  let via_display :=
    if p.2.isEmpty then []
    else
      let via_norm := normalize_name p.2
      let via_key := (cmap.lookup via_norm).getD via_norm
      (TOWARDS_DISPLAY_OVERRIDES.lookup via_key).getD (pyStrip p.2)
  if via_display.isEmpty then display_dest
  else display_dest ++ " via ".data ++ via_display

/-- `\w` of `re` (ASCII range, all the engine produces here). -/
def isWordChar (c : Char) : Bool := c.isAlpha || isDigit c || c = '_'

/-- `true` iff a `\b` boundary follows here (end of text or non-word). -/
def boundaryAfter : List Char → Bool
  | [] => true
  | d :: _ => !isWordChar d

/-- `re.sub(r"\bpower station\b", "", ·)`, scanning left to right; the
boolean records whether the previously scanned character is a word
character (for the leading `\b`).  Fuel = length of the text. -/
def subPowerStationF : Nat → Bool → List Char → List Char
  | 0, _, s => s
  | _ + 1, _, [] => []
  | fuel + 1, prevWord, c :: rest =>
    if !prevWord && "power station".data.isPrefixOf (c :: rest) &&
        boundaryAfter ((c :: rest).drop 13) then
      subPowerStationF fuel true ((c :: rest).drop 13)
    else c :: subPowerStationF fuel (isWordChar c) rest

def subPowerStation (s : List Char) : List Char := subPowerStationF s.length false s

/-- `cli.normalize_destination_key`. -/
def normalize_destination_key (value : List Char) : List Char :=
  let p := split_destination_via value
  let cmap := build_alias_canonical_map get_towards_aliases
  let dest_norm := normalize_name p.1
  let dest_norm := normalize_name (subPowerStation dest_norm)
  let dest_norm := (cmap.lookup dest_norm).getD dest_norm
  if !p.2.isEmpty then
    let via_norm := normalize_name p.2
    let via_norm := (cmap.lookup via_norm).getD via_norm
    pyStrip (dest_norm ++ " via ".data ++ via_norm)
  else dest_norm

/-- `cli.dedupe_key_for_departure`. -/
def dedupe_key_for_departure (d : Departure) : List Char :=
  normalize_destination_key (canonicalize_display_destination d.destination)

/-- `cli.order_departures`: all live entries sorted by `when`, then the
scheduled entries that are neither within 90 s of a live time for the same
dedup key nor older than the latest live time for that key, sorted by
`when`. -/
def order_departures (departures : List Departure) : List Departure :=
  let live := departures.filter (fun d => decide (d.source = liveTag))
  let scheduled := departures.filter (fun d => decide (¬ d.source = liveTag))
  let survivors :=
    if live.isEmpty then scheduled
    else scheduled.filter (fun item =>
      let key := dedupe_key_for_departure item
      let lts := (live.filter (fun l => decide (dedupe_key_for_departure l = key))).map
        Departure.when
      match lts with
      | [] => true
      | t :: ts =>
        if (t :: ts).any (fun u => qLeB (qAbs (qSub item.when u)) (intToQ 90)) then false
        else !qLtB item.when (ts.foldl qMax t))
  sortByWhen live ++ sortByWhen survivors

/-! ## departures.py: live-arrivals normalizer and timetable expander -/

def qMin (a b : ℚ) : ℚ := if qLeB a b then a else b

/-- `math.ceil` on an exact rational. -/
def qCeilI (a : ℚ) : Int := -(qFloorI (qNeg a))

/-- The integer day number of `now` (`now.date()`). -/
def todayOf (now : ℚ) : Int := qFloorI (qDiv now (intToQ 86400))

/-- `now.strftime("%A").lower()`: day 0 is a Thursday (Unix epoch). -/
def dayNameOf (now : ℚ) : List Char :=
  (["monday".data, "tuesday".data, "wednesday".data, "thursday".data,
    "friday".data, "saturday".data, "sunday".data]).getD
    ((todayOf now + 3) % 7).toNat []

/-- Stand-in for storing a departure's destination: Python would store any
value here, but a non-string destination makes `normalize_name` raise
`AttributeError` at the `_dedupe_departures` call that closes every
timetable decode, so constructing with a non-string is modelled as that
escaping error. -/
def destStr : JsonValue → Except Unit (List Char)
  | .str s => .ok s
  | _ => .error ()

/-- `frozenset(stops) if stops else None`. -/
def stopsOf : Option (List (List Char)) → Option (List (List Char))
  | some l => if l.isEmpty then none else some l
  | none => none

/-- `departures.VIA_STOP_IDS`. -/
def VIA_STOP_IDS : List (List Char × List (List Char)) :=
  [("via Bank".data, ["940GZZLUBNK".data]),
   ("via Charing Cross".data, ["940GZZLUCHX".data])]

/-- `departures._detect_via` (membership of a raw stop id in a set of id
strings; non-string ids match nothing). -/
def detect_via (stop_ids : List JsonValue) : Option (List Char) :=
  (VIA_STOP_IDS.find? (fun kv =>
    stop_ids.any (fun s => match s with
      | .str v => kv.2.contains v
      | _ => false))).map (·.1)

/-- `departures._extract_stop_map`. -/
def extract_stop_map (timetable : JsonValue) : List (List Char × List Char) :=
  match timetable.get "stops".data with
  | .arr items =>
    items.foldl (fun m item =>
      if item.isObj then
        let sid := item.get "id".data
        let nm := item.get "name".data
        if truthy sid && truthy nm then dictInsert m (pyStr sid) (pyStr nm) else m
      else m) []
  | _ => []

/-- `dict(stop_map); local.update(new)`. -/
def dictUpdate {β : Type} (m new : List (List Char × β)) : List (List Char × β) :=
  new.foldl (fun acc kv => dictInsert acc kv.1 kv.2) m

/-- The list comprehension
`[item.get("stopId") for item in stops if item.get("stopId")]`
(a non-dict element makes `.get` raise). -/
def stopIdsOf (stops : List JsonValue) : Except Unit (List JsonValue) :=
  stops.foldlM (fun acc item =>
    match item with
    | .obj _ =>
      pure (if truthy (item.get "stopId".data) then acc ++ [item.get "stopId".data]
        else acc)
    | _ => .error ()) []

/-- `departures._build_interval_destinations`. -/
def build_interval_destinations (route : JsonValue)
    (stop_map : List (List Char × List Char)) :
    Except Unit (List (List Char × List Char)) := do
  match route.get "stationIntervals".data with
  | .arr intervals =>
    intervals.foldlM (fun m interval => do
      if !interval.isObj then pure m
      else if (interval.get "id".data).isNull then pure m
      else
        match interval.getD "intervals".data (.arr []) with
        | .arr stops =>
          if stops.isEmpty then pure m
          else do
            let stop_ids ← stopIdsOf stops
            match stop_ids.getLast? with
            | none => pure m
            | some lastId =>
              let key := pyStr lastId
              let destination := (stop_map.lookup key).getD key
              let destination := match detect_via stop_ids with
                | some via => destination ++ " ".data ++ via
                | none => destination
              pure (dictInsert m (pyStr (interval.get "id".data)) destination)
        | _ => pure m) []
  | _ => pure []

/-- Insertion into a Python set modelled as a duplicate-free list. -/
def setInsert (l : List (List Char)) (x : List Char) : List (List Char) :=
  if l.contains x then l else l ++ [x]

/-- `departures._build_interval_stops`. -/
def build_interval_stops (route : JsonValue)
    (stop_map : List (List Char × List Char)) :
    Except Unit (List (List Char × List (List Char))) := do
  match route.get "stationIntervals".data with
  | .arr intervals =>
    intervals.foldlM (fun m interval => do
      if !interval.isObj then pure m
      else if (interval.get "id".data).isNull then pure m
      else
        match interval.getD "intervals".data (.arr []) with
        | .arr stops =>
          if stops.isEmpty then pure m
          else do
            let stop_ids ← stopIdsOf stops
            if stop_ids.isEmpty then pure m
            else
              let names := stop_ids.foldl (fun acc sid =>
                let key := pyStr sid
                setInsert acc ((stop_map.lookup key).getD key)) []
              pure (dictInsert m (pyStr (interval.get "id".data)) names)
        | _ => pure m) []
  | _ => pure []

/-- `departures._schedule_matches_day`. -/
def schedule_matches_day (name : JsonValue) (now : ℚ) : Bool :=
  match name with
  | .str s =>
    let text := s.map Char.toLower
    let day := dayNameOf now
    if containsSub text day then true
    else if containsSub text "weekday".data &&
        ["monday".data, "tuesday".data, "wednesday".data, "thursday".data,
          "friday".data].contains day then true
    else if containsSub text "monday - thursday".data &&
        ["monday".data, "tuesday".data, "wednesday".data,
          "thursday".data].contains day then true
    else if containsSub text "friday".data && day = "friday".data then true
    else if containsSub text "saturday".data && day = "saturday".data then true
    else if containsSub text "sunday".data && day = "sunday".data then true
    else false
  | _ => true

/-- `departures._parse_known_journeys`. -/
def parse_known_journeys (schedule : JsonValue)
    (interval_destinations : List (List Char × List Char))
    (interval_stops : List (List Char × List (List Char)))
    (default_destination : JsonValue) (now window_end : ℚ) :
    Except Unit (List Departure) := do
  if !schedule.isObj then return []
  match schedule.get "knownJourneys".data with
  | .arr journeys =>
    journeys.foldlM (fun acc journey => do
      if !journey.isObj then pure acc
      else do
        match ← parse_time_value journey (todayOf now) with
        | none => pure acc
        | some when =>
          if qLtB when now || qLtB window_end when then pure acc
          else
            let interval_id := journey.get "intervalId".data
            let destination : JsonValue :=
              if interval_id.isNull then default_destination
              else match interval_destinations.lookup (pyStr interval_id) with
                | some s => .str s
                | none => default_destination
            let stops : Option (List (List Char)) :=
              if interval_id.isNull then none
              else match interval_stops.lookup (pyStr interval_id) with
                | some l => if l.isEmpty then none else some l
                | none => none
            let d ← destStr destination
            pure (acc ++ [⟨when, d, timetableTag, none, stops, none⟩])) []
  | _ => return []

/-- The `while current <= end_dt and current <= window_end` loop of
`_parse_schedule_period`, emitting the departure instants.  `step` is the
frequency converted to seconds; the fuel passed by the caller dominates
the iteration count whenever `step > 0`. -/
def freqLoopF (end_dt window_end step offset_delta now : ℚ) :
    Nat → ℚ → List ℚ
  | 0, _ => []
  | fuel + 1, current =>
    if qLeB current end_dt && qLeB current window_end then
      (let when := qAdd current offset_delta
       if qLeB now when && qLeB when window_end then [when] else []) ++
        freqLoopF end_dt window_end step offset_delta now fuel (qAdd current step)
    else []

/-- Fuel that dominates the iteration count of `freqLoopF`. -/
def freqFuel (end_dt window_end step current : ℚ) : Nat :=
  (qFloorI (qDiv (qSub (qMin end_dt window_end) current) step) + 1).toNat

/-- The `isinstance(time_value, (str, dict))` guard of the `times` list in
`_parse_schedule_period`. -/
def timeValueWhen (time_value : JsonValue) (now : ℚ) : Except Unit (Option ℚ) :=
  match time_value with
  | .str _ => parse_time_value time_value (todayOf now)
  | .obj _ => parse_time_value time_value (todayOf now)
  | _ => pure none

/-- `departures._parse_schedule_period`. -/
def parse_schedule_period (period destination : JsonValue)
    (offset_minutes : Int) (now window_end : ℚ)
    (stops : Option (List (List Char))) : Except Unit (List Departure) := do
  if !period.isObj then return []
  match period.get "times".data with
  | .arr times =>
    times.foldlM (fun acc time_value => do
      let when? ← timeValueWhen time_value now
      match when? with
      | none => pure acc
      | some when0 =>
        let when := qAdd when0 (qMul (intToQ offset_minutes) (intToQ 60))
        if qLeB now when && qLeB when window_end then do
          let d ← destStr destination
          pure (acc ++ [⟨when, d, timetableTag, none, stopsOf stops, none⟩])
        else pure acc) []
  | _ =>
    let start_value := pyOr (period.get "startTime".data) (period.get "fromTime".data)
    let end_value := pyOr (period.get "endTime".data) (period.get "toTime".data)
    let frequency := period.get "frequency".data
    if !(truthy start_value && truthy end_value && truthy frequency) then return []
    let start_dt? ← parse_time_value start_value (todayOf now)
    let end_dt? ← parse_time_value end_value (todayOf now)
    match start_dt?, end_dt? with
    | some start_dt, some end_dt0 =>
      let end_dt := if qLtB end_dt0 start_dt then qAdd end_dt0 (intToQ 86400)
        else end_dt0
      let freq ← pyFloat frequency
      if qLeB freq (intToQ 0) then return []
      let offset_delta := qMul (intToQ offset_minutes) (intToQ 60)
      let step := qMul freq (intToQ 60)
      let current :=
        if qLtB start_dt now then
          let delta_minutes := qDiv (qSub now start_dt) (intToQ 60)
          let steps := qFloorI (qDiv delta_minutes freq)
          let c := qAdd start_dt (qMul (qMul (intToQ steps) freq) (intToQ 60))
          if qLtB c now then qAdd c step else c
        else start_dt
      let whens := freqLoopF end_dt window_end step offset_delta now
        (freqFuel end_dt window_end step current) current
      whens.mapM (fun w => do
        let d ← destStr destination
        pure (⟨w, d, timetableTag, none, stopsOf stops, none⟩ : Departure))
    | _, _ => return []

/-- `departures._parse_route`. -/
def parse_route (route : JsonValue)
    (stop_map : List (List Char × List Char)) (now window_end : ℚ) :
    Except Unit (List Departure) := do
  match route with
  | .obj _ =>
    let destination := pyOr (route.get "destination".data)
      (pyOr (route.get "destinationName".data)
        (pyOr (route.get "name".data)
          (pyOr (route.get "lineString".data)
            (pyOr (route.get "direction".data) (.str "Unknown".data)))))
    let interval_destinations ← build_interval_destinations route stop_map
    let interval_stops ← build_interval_stops route stop_map
    let route_stops : Option (List (List Char)) :=
      match interval_stops with
      | [kv] => some kv.2
      | _ => none
    let default_destination : JsonValue :=
      match interval_destinations with
      | [] => destination
      | kv :: _ => .str kv.2
    let scheduleList ← pyIter (route.getD "schedules".data (.arr []))
    let matching := scheduleList.filter (fun s =>
      s.isObj && schedule_matches_day (s.get "name".data) now)
    let loopList := if matching.isEmpty then scheduleList else matching
    loopList.foldlM (fun acc schedule => do
      let known ← parse_known_journeys schedule interval_destinations
        interval_stops default_destination now window_end
      if !known.isEmpty then pure (acc ++ known)
      else do
        let periods := if schedule.isObj then schedule.getD "periods".data (.arr [])
          else .arr []
        let periodList ← pyIter periods
        periodList.foldlM (fun acc2 period => do
          let xs ← parse_schedule_period period default_destination 0 now
            window_end route_stops
          pure (acc2 ++ xs)) acc) []
  | _ => .error ()

/-- The `str`/`dict`/number cascade resolving a flat departure entry's
time in `_parse_departure_list` (`bool` counts as a number for Python's
`isinstance(x, (int, float))`). -/
def departureItemWhen (iso : List Char → Option ℚ) (time_value : JsonValue)
    (now : ℚ) : Except Unit (Option ℚ) :=
  match time_value with
  | .str s =>
    match parse_iso_datetime iso s with
    | some w => pure (some w)
    | none => parse_time_of_day s (todayOf now)
  | .obj _ => parse_time_value time_value (todayOf now)
  | .num q => pure (some (qAdd now q))
  | .bool b => pure (some (qAdd now (intToQ (if b then 1 else 0))))
  | _ => pure none

/-- `departures._parse_departure_list` (the unparameterized `iso` oracle is
threaded exactly as for `parse_iso_datetime`). -/
def parse_departure_list (iso : List Char → Option ℚ) (departures : JsonValue)
    (now window_end : ℚ) : Except Unit (List Departure) := do
  let items ← pyIter departures
  items.foldlM (fun acc item => do
    if !item.isObj then pure acc
    else do
      let time_value := pyOr (item.get "departureTime".data)
        (pyOr (item.get "scheduledTime".data) (item.get "time".data))
      let when? ← departureItemWhen iso time_value now
      match when? with
      | none => pure acc
      | some when =>
        if qLtB when now || qLtB window_end when then pure acc
        else do
          let destination := pyOr (item.get "destination".data)
            (pyOr (item.get "destinationName".data) (.str "Unknown".data))
          let d ← destStr destination
          pure (acc ++ [⟨when, d, timetableTag, none, none, none⟩])) []

/-- The body of `departures._parse_timetable_container`; `recur` is the
recursive call for the elements of a list payload. -/
def parse_timetable_container_step
    (recur : JsonValue → List (List Char × List Char) → ℚ → ℚ →
      Except Unit (List Departure))
    (container : JsonValue) (stop_map : List (List Char × List Char))
    (now window_end : ℚ) : Except Unit (List Departure) :=
  match container with
  | .arr items =>
    items.foldlM (fun acc item => do
      let xs ← recur item stop_map now window_end
      pure (acc ++ xs)) []
  | .obj _ =>
    let local_stop_map := dictUpdate stop_map (extract_stop_map container)
    match container.get "routes".data with
    | .arr routes =>
      routes.foldlM (fun acc route => do
        let xs ← parse_route route local_stop_map now window_end
        pure (acc ++ xs)) []
    | _ => .ok []
  | _ => .ok []

/-- `departures._parse_timetable_container`, with structural fuel for its
list recursion (the wrapper passes the payload's `jsize`, which strictly
dominates the recursion depth). -/
def parse_timetable_containerF (iso : List Char → Option ℚ) :
    Nat → JsonValue → List (List Char × List Char) → ℚ → ℚ →
    Except Unit (List Departure)
  | 0, _, _, _, _ => .ok []
  | fuel + 1, container, stop_map, now, window_end =>
    parse_timetable_container_step (parse_timetable_containerF iso fuel)
      container stop_map now window_end

/-- The `if "departures" in timetable` block of
`timetable_to_departures`. -/
def ttd_departures_part (iso : List Char → Option ℚ) (timetable : JsonValue)
    (now window_end : ℚ) : Except Unit (List Departure) :=
  if timetable.hasKey "departures".data then
    parse_departure_list iso (timetable.getD "departures".data (.arr []))
      now window_end
  else pure []

/-- The `if "timetables" in timetable` block of `timetable_to_departures`;
`recur` is the recursive call. -/
def ttd_timetables_part
    (recur : JsonValue → List Char → ℚ → ℚ → Except Unit (List Departure))
    (timetable : JsonValue) (stop_id : List Char) (now window_end : ℚ) :
    Except Unit (List Departure) :=
  if timetable.hasKey "timetables".data then
    match timetable.get "timetables".data with
    | .arr items =>
      items.foldlM (fun acc item => do
        let xs ← recur item stop_id now window_end
        pure (acc ++ xs)) []
    | _ => pure []
  else pure []

/-- The `if "timetable" in timetable ... elif "routes" in timetable` block
of `timetable_to_departures`. -/
def ttd_container_part
    (recurC : JsonValue → List (List Char × List Char) → ℚ → ℚ →
      Except Unit (List Departure))
    (timetable : JsonValue) (stop_map : List (List Char × List Char))
    (now window_end : ℚ) : Except Unit (List Departure) :=
  if timetable.hasKey "timetable".data then
    recurC (timetable.get "timetable".data) stop_map now window_end
  else if timetable.hasKey "routes".data then
    recurC timetable stop_map now window_end
  else pure []

/-- The body of `departures.timetable_to_departures`; `recur` is the
recursive call (array elements and `timetables` entries) and
`recurContainer` handles a `timetable`/`routes` container. -/
def timetable_to_departures_step (iso : List Char → Option ℚ)
    (recur : JsonValue → List Char → ℚ → ℚ → Except Unit (List Departure))
    (recurContainer : JsonValue → List (List Char × List Char) → ℚ → ℚ →
      Except Unit (List Departure))
    (timetable : JsonValue) (stop_id : List Char) (now window_end : ℚ) :
    Except Unit (List Departure) :=
  match timetable with
  | .arr items =>
    items.foldlM (fun acc item => do
      let xs ← recur item stop_id now window_end
      pure (acc ++ xs)) []
  | .obj _ => do
    let stop_map := extract_stop_map timetable
    let d1 ← ttd_departures_part iso timetable now window_end
    let d2 ← ttd_timetables_part recur timetable stop_id now window_end
    let d3 ← ttd_container_part recurContainer timetable stop_map now window_end
    return dedupe_departures (sortByWhen (d1 ++ d2 ++ d3))
  | _ => .ok []

/-- `departures.timetable_to_departures`, with structural fuel for the
recursive walk (the wrapper passes the payload's `jsize`). -/
def timetable_to_departuresF (iso : List Char → Option ℚ) :
    Nat → JsonValue → List Char → ℚ → ℚ → Except Unit (List Departure)
  | 0, _, _, _, _ => .ok []
  | fuel + 1, timetable, stop_id, now, window_end =>
    timetable_to_departures_step iso (timetable_to_departuresF iso fuel)
      (parse_timetable_containerF iso fuel) timetable stop_id now window_end

mutual

/-- Computable structural size of a payload, used as recursion fuel: every
recursive call of the walk is on a value of strictly smaller `jsize`. -/
def jsize : JsonValue → Nat
  | .null => 1
  | .bool _ => 1
  | .num _ => 1
  | .str _ => 1
  | .arr items => 1 + jsizeList items
  | .obj fields => 1 + jsizeFields fields

def jsizeList : List JsonValue → Nat
  | [] => 0
  | x :: xs => 1 + jsize x + jsizeList xs

def jsizeFields : List (List Char × JsonValue) → Nat
  | [] => 0
  | kv :: rest => 1 + jsize kv.2 + jsizeFields rest

end

/-- `departures.timetable_to_departures`. -/
def timetable_to_departures (iso : List Char → Option ℚ) (timetable : JsonValue)
    (stop_id : List Char) (now window_end : ℚ) : Except Unit (List Departure) :=
  timetable_to_departuresF iso (jsize timetable) timetable stop_id now window_end

/-- One raw arrival record of `departures.arrivals_to_departures`;
`ok none` is the loop's `continue`. -/
def arrivalRecord (iso : List Char → Option ℚ) (now window_end : ℚ)
    (item : JsonValue) : Except Unit (Option Departure) := do
  let expected := pyOr (item.get "expectedArrival".data)
    (item.get "expectedDeparture".data)
  let when? : Option ℚ ←
    if truthy expected then
      pure (parse_iso_datetime iso (pyStr expected))
    else
      match item.get "timeToStation".data with
      | .num q => pure (some (qAdd now q))
      | .bool b => pure (some (qAdd now (intToQ (if b then 1 else 0))))
      | _ => pure none
  match when? with
  | none => return none
  | some when =>
    if qLtB when now || qLtB window_end when then return none
    else do
      let dest0 := pyOr (item.get "towards".data)
        (pyOr (item.get "destinationName".data) (.str []))
      let via := item.get "via".data
      let dest1 : JsonValue ←
        if truthy via then
          match dest0, via with
          | .str d, .str v =>
            pure (if !containsSub d v then
                .str (pyStrip (d ++ " via ".data ++ v))
              else dest0)
          | _, _ => .error ()
        else pure dest0
      let dest2 := if truthy dest1 then dest1
        else pyOr (item.get "lineName".data)
          (pyOr (item.get "lineId".data) (.str "Unknown".data))
      let lineV := pyOr (item.get "lineName".data) (item.get "lineId".data)
      return some ⟨when, pyStr dest2, liveTag,
        (if lineV.isNull then none else some (pyStr lineV)), none,
        (if (item.get "direction".data).isNull then none
          else some (pyStr (item.get "direction".data)))⟩

instance {ε α : Type} [DecidableEq ε] [DecidableEq α] : DecidableEq (Except ε α) :=
  fun x y =>
    match x, y with
    | .ok a, .ok b => decidable_of_iff (a = b) (by simp)
    | .error e, .error f => decidable_of_iff (e = f) (by simp)
    | .ok _, .error _ => isFalse (by simp)
    | .error _, .ok _ => isFalse (by simp)

/-- `departures.arrivals_to_departures`. -/
def arrivals_to_departures (iso : List Char → Option ℚ)
    (arrivals : List JsonValue) (now window_end : ℚ) :
    Except Unit (List Departure) := do
  let items ← arrivals.foldlM (fun acc item => do
    match ← arrivalRecord iso now window_end item with
    | some d => pure (acc ++ [d])
    | none => pure acc) []
  return sortByWhen items

/-- Every departure constructed by the timetable decoders carries
`source = timetableTag`. -/
def srcTag (d : Departure) : Prop := d.source = timetableTag

/-- Concrete schedule period used to witness the frequency-expansion
claim: start 08:00, end 09:00, frequency 10 minutes. -/
def c4period : JsonValue :=
  .obj [("startTime".data, .str "08:00".data),
    ("endTime".data, .str "09:00".data),
    ("frequency".data, .num 10)]

/-- The expansion of `c4period` at `now` = 08:23 (30180 s) with window end
10:00 (36000 s): 08:30, 08:40, 08:50, 09:00. -/
def c4expansion : List Departure :=
  [⟨intToQ 30600, "X".data, timetableTag, none, none, none⟩,
   ⟨intToQ 31200, "X".data, timetableTag, none, none, none⟩,
   ⟨intToQ 31800, "X".data, timetableTag, none, none, none⟩,
   ⟨intToQ 32400, "X".data, timetableTag, none, none, none⟩]

/-- `true` iff the list ends in a non-whitespace character (or is empty). -/
def noTrailWsB (l : List Char) : Bool :=
  match l.getLast? with
  | none => true
  | some c => !isWs c

/-- Exactly the three letters `via` (case-insensitive). -/
def viaTriple : List Char → Bool
  | [x, y, z] => x.toLower = 'v' && y.toLower = 'i' && z.toLower = 'a'
  | _ => false

/-- Every whitespace-headed suffix neither matches `\s+via\s+` here nor is a
whitespace run followed by a bare trailing `via`. -/
def wsSuffixOk : List Char → Bool
  | [] => true
  | c :: t =>
    (if isWs c then
      (tryViaHere (c :: t)).isNone && !viaTriple ((c :: t).dropWhile isWs)
     else true) && wsSuffixOk t

/-! ## Bridge lemmas: the `mkRat` wrappers equal the standard operations -/

theorem intToQ_eq (n : Int) : intToQ n = (n : ℚ) := Rat.mkRat_one ..

theorem qLeB_iff {a b : ℚ} : qLeB a b = true ↔ a ≤ b := by
  rw [qLeB, decide_eq_true_iff]; exact Rat.le_def.symm

theorem qLtB_iff {a b : ℚ} : qLtB a b = true ↔ a < b := by
  rw [qLtB, decide_eq_true_iff]; exact Rat.lt_def.symm

theorem qAdd_eq (a b : ℚ) : qAdd a b = a + b := by
  rw [qAdd, Rat.mkRat_eq_div]
  push_cast
  conv_rhs => rw [← Rat.num_div_den a, ← Rat.num_div_den b]
  field_simp

theorem qSub_eq (a b : ℚ) : qSub a b = a - b := by
  rw [qSub, Rat.mkRat_eq_div]
  push_cast
  conv_rhs => rw [← Rat.num_div_den a, ← Rat.num_div_den b]
  field_simp
  ring

theorem qMul_eq (a b : ℚ) : qMul a b = a * b := by
  rw [qMul, Rat.mkRat_eq_div]
  push_cast
  conv_rhs => rw [← Rat.num_div_den a, ← Rat.num_div_den b]
  field_simp

theorem qNeg_eq (a : ℚ) : qNeg a = -a := by
  rw [qNeg, Rat.mkRat_eq_div]
  push_cast
  rw [neg_div, Rat.num_div_den]

theorem qMax_eq (a b : ℚ) : qMax a b = max a b := by
  rw [qMax, max_def]
  by_cases h : a ≤ b
  · rw [if_pos (qLeB_iff.mpr h), if_pos h]
  · rw [if_neg (fun hc => h (qLeB_iff.mp hc)), if_neg h]

theorem qMin_eq (a b : ℚ) : qMin a b = min a b := by
  rw [qMin, min_def]
  by_cases h : a ≤ b
  · rw [if_pos (qLeB_iff.mpr h), if_pos h]
  · rw [if_neg (fun hc => h (qLeB_iff.mp hc)), if_neg h]

theorem qAbs_eq (a : ℚ) : qAbs a = |a| := by
  rw [qAbs]
  rcases le_or_lt 0 a with h | h
  · rw [abs_of_nonneg h]
    have h1 : a.num.natAbs = a.num.toNat := by
      have := Rat.num_nonneg.mpr h
      omega
    have h2 : (a.num.toNat : Int) = a.num := by
      have := Rat.num_nonneg.mpr h
      omega
    rw [h1, h2, Rat.mkRat_self]
  · rw [abs_of_neg h]
    have hn : a.num < 0 := Rat.num_neg.mpr h
    have h1 : ((a.num.natAbs : Int)) = -a.num := by omega
    rw [h1, Rat.mkRat_eq_div]
    push_cast
    rw [neg_div, Rat.num_div_den]

theorem qDiv_eq (a b : ℚ) : qDiv a b = a / b := by
  rcases lt_trichotomy b.num 0 with h | h | h
  · have hbn : ((b.num : ℚ)) ≠ 0 := by exact_mod_cast h.ne
    rw [qDiv, Int.sign_eq_neg_one_of_neg h, Rat.mkRat_eq_div]
    push_cast [Int.cast_natAbs]
    rw [abs_of_neg (by exact_mod_cast h : ((b.num : ℚ)) < 0)]
    conv_rhs => rw [← Rat.num_div_den a, ← Rat.num_div_den b]
    have ha' : ((a.den : ℚ)) ≠ 0 := by exact_mod_cast a.den_nz
    have hb' : ((b.den : ℚ)) ≠ 0 := by exact_mod_cast b.den_nz
    field_simp
  · have hb : b = 0 := Rat.num_eq_zero.mp h
    rw [qDiv, h, hb]
    simp
  · have hbn : ((b.num : ℚ)) ≠ 0 := by exact_mod_cast h.ne'
    rw [qDiv, Int.sign_eq_one_of_pos h, Rat.mkRat_eq_div]
    push_cast [Int.cast_natAbs]
    rw [abs_of_pos (by exact_mod_cast h : (0 : ℚ) < (b.num : ℚ))]
    conv_rhs => rw [← Rat.num_div_den a, ← Rat.num_div_den b]
    have ha' : ((a.den : ℚ)) ≠ 0 := by exact_mod_cast a.den_nz
    have hb' : ((b.den : ℚ)) ≠ 0 := by exact_mod_cast b.den_nz
    field_simp

theorem qFloorI_eq (a : ℚ) : qFloorI a = ⌊a⌋ := by
  rw [qFloorI, Rat.floor_def]

theorem qCeilI_eq (a : ℚ) : qCeilI a = ⌈a⌉ := by
  rw [qCeilI, qFloorI_eq, qNeg_eq, Int.floor_neg, neg_neg]

/-! ## Claim C5 (`parse_time_of_day` on invalid input) -/

/-- C5: the spec (and the repository's own unit tests
`test_parse_time_of_day_invalid_minutes_returns_none` /
`test_parse_time_of_day_invalid_token_returns_none`) require
`parse_time_of_day("12:99")` and `parse_time_of_day("12:xx")` to return
null; the code instead lets a `ValueError` escape — from
`datetime.time(12, 99)` for the out-of-range minute and from `int("xx")`
for the non-numeric token.  The model evaluates the code at both failing
inputs to the escaping-error value, for every reference date. -/
theorem C5_parse_time_of_day_raises (today : Int) :
    parse_time_of_day "12:99".data today = .error () ∧
    parse_time_of_day "12:xx".data today = .error () := by
  constructor <;> rfl

/-! ## Claim C6 (`normalize_name` suffix stripping) -/

/-- C6: the claim (and the repository's unit test
`test_normalize_name_removes_station_suffixes`) says
`normalize_name("Tottenham Court Road Underground Station")`
is `"tottenham court road"`.  The code's replacement patterns
`" underground station "` / `" station "` each require a trailing space,
so the suffix at the end of the string is never stripped and the result
keeps it. -/
theorem C6_normalize_name_on_failing_input :
    normalize_name "Tottenham Court Road Underground Station".data
      = "tottenham court road underground station".data ∧
    normalize_name "Tottenham Court Road Underground Station".data
      ≠ "tottenham court road".data := by
  constructor <;> decide

/-! ## Sorting helpers -/

theorem sortByWhen_perm (l : List Departure) : (sortByWhen l).Perm l :=
  List.perm_insertionSort _ l

theorem mem_sortByWhen {d : Departure} {l : List Departure} :
    d ∈ sortByWhen l ↔ d ∈ l :=
  (sortByWhen_perm l).mem_iff

theorem sortByWhen_sorted (l : List Departure) :
    (sortByWhen l).Sorted (fun a b => a.when ≤ b.when) := by
  haveI : IsTotal Departure (fun a b => qLeB a.when b.when = true) :=
    ⟨fun a b => by
      rcases le_total a.when b.when with h | h
      · exact Or.inl (qLeB_iff.mpr h)
      · exact Or.inr (qLeB_iff.mpr h)⟩
  haveI : IsTrans Departure (fun a b => qLeB a.when b.when = true) :=
    ⟨fun a b c hab hbc => qLeB_iff.mpr ((qLeB_iff.mp hab).trans (qLeB_iff.mp hbc))⟩
  have h := List.sorted_insertionSort (fun a b => qLeB a.when b.when = true) l
  exact h.imp (fun hab => qLeB_iff.mp hab)

/-- The 90-second nearness test of `_is_duplicate`, in standard form. -/
theorem qNear_iff (a b : ℚ) :
    (qLeB (qAbs (qSub a b)) (intToQ 90) = true) ↔ |a - b| ≤ 90 := by
  rw [qLeB_iff, qAbs_eq, qSub_eq, intToQ_eq]
  norm_num

/-! ## Claim C1 (merge keeps live, drops nearby scheduled) -/

/-- C1 as frozen is false: equality of `normalize_destination_key` (the
spec's dedup key, which canonicalizes aliases) does not imply the
substring similarity `merge_departures` actually tests.  With a live
`"CX"` and a scheduled `"Charing Cross"` at the same instant the two keys
agree and the times are within 90 s, yet the scheduled departure is kept
in the merge output. -/
theorem C1_counterexample :
    normalize_destination_key "CX".data
      = normalize_destination_key "Charing Cross".data ∧
    |(0 : ℚ) - 0| ≤ 90 ∧
    (⟨0, "Charing Cross".data, timetableTag, none, none, none⟩ : Departure) ∈
      merge_departures [⟨0, "CX".data, liveTag, none, none, none⟩]
        [⟨0, "Charing Cross".data, timetableTag, none, none, none⟩] :=
  ⟨by decide, by norm_num, by decide⟩

/-- C1 (amended): for a live `d1` and a scheduled `d2` (not itself in the
live list) within 90 seconds whose destinations are similar in the
code's sense — `normalize_name` of one a substring of the other —
`merge_departures` keeps `d1` and drops `d2`. -/
theorem C1_merge_drops_similar_scheduled
    (live timetable : List Departure) (d1 d2 : Departure)
    (h1 : d1 ∈ live) (h2 : d2 ∉ live)
    (hsim : similar_destination d1.destination d2.destination = true)
    (ht : |d1.when - d2.when| ≤ 90) :
    d1 ∈ merge_departures live timetable ∧
    d2 ∉ merge_departures live timetable := by
  have hdup : is_duplicate d2 live = true := by
    rw [is_duplicate, List.any_eq_true]
    exact ⟨d1, h1, by rw [Bool.and_eq_true]; exact ⟨(qNear_iff _ _).mpr ht, hsim⟩⟩
  constructor
  · rw [merge_departures, mem_sortByWhen, List.mem_append]
    exact Or.inl h1
  · rw [merge_departures, mem_sortByWhen, List.mem_append]
    rintro (hin | hin)
    · exact h2 hin
    · have := (List.mem_filter.mp hin).2
      rw [hdup] at this
      simp at this

/-- Witness for C1: a live Morden departure at `t = 0` and a scheduled
Morden departure at `t = 60` — the merge keeps the live one and drops the
scheduled one. -/
theorem C1_merge_drops_similar_scheduled_witness :
    (⟨0, "Morden".data, liveTag, none, none, none⟩ : Departure) ∈
      merge_departures [⟨0, "Morden".data, liveTag, none, none, none⟩]
        [⟨60, "Morden".data, timetableTag, none, none, none⟩] ∧
    (⟨60, "Morden".data, timetableTag, none, none, none⟩ : Departure) ∉
      merge_departures [⟨0, "Morden".data, liveTag, none, none, none⟩]
        [⟨60, "Morden".data, timetableTag, none, none, none⟩] :=
  C1_merge_drops_similar_scheduled _ _ _ _
    (by decide) (by decide) (by decide) (by norm_num)

/-! ## Claim C2 (display ordering: live block before scheduled block) -/

/-- C2: for every input, `order_departures` returns the sorted list of all
live entries (a permutation of the input's live entries, ascending by
`when`), followed by a sorted selection of the input's scheduled entries
(a sublist: the survivors of the suppression rules).  The concatenation is
unconditional, so this holds even when a surviving scheduled time is
numerically earlier than some live time. -/
theorem C2_order_departures_structure (departures : List Departure) :
    ∃ survivors : List Departure,
      survivors.Sublist
        (departures.filter (fun d => decide (¬ d.source = liveTag))) ∧
      order_departures departures
        = sortByWhen (departures.filter (fun d => decide (d.source = liveTag)))
            ++ sortByWhen survivors ∧
      (sortByWhen (departures.filter (fun d => decide (d.source = liveTag)))).Perm
        (departures.filter (fun d => decide (d.source = liveTag))) ∧
      (sortByWhen
        (departures.filter (fun d => decide (d.source = liveTag)))).Sorted
        (fun a b => a.when ≤ b.when) ∧
      (sortByWhen survivors).Sorted (fun a b => a.when ≤ b.when) := by
  rw [order_departures]
  refine ⟨_, ?_, rfl, sortByWhen_perm _, sortByWhen_sorted _, sortByWhen_sorted _⟩
  split
  · exact List.Sublist.refl _
  · exact List.filter_sublist _

/-! ## Claim C10 (failed ISO parse drops the arrival record) -/

/-- C10: in `arrivals_to_departures`, a record whose
`expectedArrival`/`expectedDeparture` chain yields a truthy value that
fails ISO parsing contributes nothing — whatever its `timeToStation`
field holds, the countdown is never consulted as a fallback. -/
theorem C10_failed_iso_parse_drops_record
    (iso : List Char → Option ℚ) (now window_end : ℚ)
    (item : JsonValue) (rest : List JsonValue)
    (hexp : truthy (pyOr (item.get "expectedArrival".data)
      (item.get "expectedDeparture".data)) = true)
    (hiso : parse_iso_datetime iso
      (pyStr (pyOr (item.get "expectedArrival".data)
        (item.get "expectedDeparture".data))) = none) :
    arrivalRecord iso now window_end item = .ok none ∧
    arrivals_to_departures iso (item :: rest) now window_end
      = arrivals_to_departures iso rest now window_end := by
  have hrec : arrivalRecord iso now window_end item = .ok none := by
    rw [arrivalRecord]
    simp only [hexp, if_true, hiso]
    rfl
  refine ⟨hrec, ?_⟩
  rw [arrivals_to_departures, arrivals_to_departures, List.foldlM_cons, hrec]
  rfl

/-- Witness for C10: a record with an unparseable `expectedArrival` and a
perfectly usable `timeToStation` countdown is dropped. -/
theorem C10_failed_iso_parse_drops_record_witness :
    arrivalRecord (fun _ => none) 0 3600
      (.obj [("expectedArrival".data, .str "garbage".data),
        ("timeToStation".data, .num 60)]) = .ok none ∧
    arrivals_to_departures (fun _ => none)
      [.obj [("expectedArrival".data, .str "garbage".data),
        ("timeToStation".data, .num 60)]] 0 3600
      = arrivals_to_departures (fun _ => none) [] 0 3600 :=
  C10_failed_iso_parse_drops_record (fun _ => none) 0 3600 _ _
    (by decide) (by decide)



theorem bind_eq_ok {α β : Type} {x : Except Unit α} {f : α → Except Unit β} {b : β} :
    (x >>= f) = .ok b ↔ ∃ a, x = .ok a ∧ f a = .ok b := by
  cases x <;> simp [Bind.bind, Except.bind]

theorem pure_eq_ok {α : Type} {a b : α} :
    (pure a : Except Unit α) = .ok b ↔ a = b := by
  constructor
  · intro h; cases h; rfl
  · intro h; rw [h]; rfl

theorem ok_eq_ok {α : Type} {a b : α} :
    (Except.ok a : Except Unit α) = .ok b ↔ a = b := by
  constructor
  · intro h; cases h; rfl
  · intro h; rw [h]

theorem foldlM_inv {α : Type} (P : Departure → Prop)
    (step : List Departure → α → Except Unit (List Departure))
    (hstep : ∀ acc a out, step acc a = .ok out → (∀ d ∈ acc, P d) → ∀ d ∈ out, P d)
    (items : List α) :
    ∀ (acc out : List Departure), (∀ d ∈ acc, P d) →
      List.foldlM step acc items = .ok out → ∀ d ∈ out, P d := by
  induction items with
  | nil =>
    intro acc out hacc h
    simp only [List.foldlM_nil] at h
    cases h
    exact hacc
  | cons x xs ih =>
    intro acc out hacc h
    rw [List.foldlM_cons] at h
    rcases bind_eq_ok.mp h with ⟨acc', hs, h2⟩
    exact ih acc' out (hstep acc x acc' hs hacc) h2

theorem mapM_inv {α : Type} (P : Departure → Prop)
    (f : α → Except Unit Departure)
    (hf : ∀ a d, f a = .ok d → P d) :
    ∀ (items : List α) (out : List Departure),
      items.mapM f = .ok out → ∀ d ∈ out, P d := by
  intro items
  induction items with
  | nil =>
    intro out h
    simp only [List.mapM_nil] at h
    rcases pure_eq_ok.mp h with rfl
    intro d hd
    cases hd
  | cons x xs ih =>
    intro out h
    rw [List.mapM_cons] at h
    rcases bind_eq_ok.mp h with ⟨d0, hd0, h2⟩
    rcases bind_eq_ok.mp h2 with ⟨ds, hds, h3⟩
    rcases pure_eq_ok.mp h3 with rfl
    intro d hd
    rcases List.mem_cons.mp hd with h1 | h1
    · exact h1 ▸ hf x d0 hd0
    · exact ih ds hds d h1


theorem src_parse_schedule_period {period destination : JsonValue}
    {offset_minutes : Int} {now window_end : ℚ}
    {stops : Option (List (List Char))} {l : List Departure}
    (h : parse_schedule_period period destination offset_minutes now window_end
      stops = .ok l) :
    ∀ d ∈ l, srcTag d := by
  rw [parse_schedule_period] at h
  split at h
  · rcases pure_eq_ok.mp h with rfl; intro d hd; cases hd
  · try simp only [pure_bind] at h
    split at h
    · -- explicit `times` list
      refine foldlM_inv srcTag _ ?_ _ [] l (by intro d hd; cases hd) h
      intro acc a out hs hacc
      rcases bind_eq_ok.mp hs with ⟨w?, hw, hrest⟩
      cases w? with
      | none => rcases pure_eq_ok.mp hrest with rfl; exact hacc
      | some w0 =>
        simp only at hrest
        split at hrest
        · rcases bind_eq_ok.mp hrest with ⟨d0, _, hout⟩
          rcases pure_eq_ok.mp hout with rfl
          intro d hd
          rcases List.mem_append.mp hd with h1 | h1
          · exact hacc d h1
          · rcases List.mem_singleton.mp h1 with rfl; rfl
        · rcases pure_eq_ok.mp hrest with rfl; exact hacc
    · -- start/end/frequency period
      split at h
      · rcases pure_eq_ok.mp h with rfl; intro d hd; cases hd
      · try simp only [pure_bind] at h
        rcases bind_eq_ok.mp h with ⟨s?, hs, h2⟩
        rcases bind_eq_ok.mp h2 with ⟨e?, he, h3⟩
        cases s? with
        | none =>
          cases e? <;> (rcases pure_eq_ok.mp h3 with rfl; intro d hd; cases hd)
        | some sdt =>
          cases e? with
          | none => rcases pure_eq_ok.mp h3 with rfl; intro d hd; cases hd
          | some edt =>
            simp only at h3
            rcases bind_eq_ok.mp h3 with ⟨fq, hfq, h4⟩
            split at h4
            · rcases pure_eq_ok.mp h4 with rfl; intro d hd; cases hd
            · try simp only [pure_bind] at h4
              refine mapM_inv srcTag _ ?_ _ l h4
              intro a d hf
              rcases bind_eq_ok.mp hf with ⟨d0, _, hout⟩
              rcases pure_eq_ok.mp hout with rfl
              rfl

theorem src_parse_known_journeys {schedule : JsonValue}
    {ids : List (List Char × List Char)}
    {ist : List (List Char × List (List Char))} {dd : JsonValue}
    {now window_end : ℚ} {l : List Departure}
    (h : parse_known_journeys schedule ids ist dd now window_end = .ok l) :
    ∀ d ∈ l, srcTag d := by
  rw [parse_known_journeys] at h
  split at h
  · rcases pure_eq_ok.mp h with rfl; intro d hd; cases hd
  · try simp only [pure_bind] at h
    split at h
    · refine foldlM_inv srcTag _ ?_ _ [] l (by intro d hd; cases hd) h
      intro acc a out hs hacc
      split at hs
      · rcases pure_eq_ok.mp hs with rfl; exact hacc
      · try simp only [pure_bind] at hs
        rcases bind_eq_ok.mp hs with ⟨w?, hw, hrest⟩
        cases w? with
        | none => rcases pure_eq_ok.mp hrest with rfl; exact hacc
        | some w =>
          simp only at hrest
          split at hrest
          · rcases pure_eq_ok.mp hrest with rfl; exact hacc
          · rcases bind_eq_ok.mp hrest with ⟨d0, _, hout⟩
            rcases pure_eq_ok.mp hout with rfl
            intro d hd
            rcases List.mem_append.mp hd with h1 | h1
            · exact hacc d h1
            · rcases List.mem_singleton.mp h1 with rfl; rfl
    · rcases pure_eq_ok.mp h with rfl; intro d hd; cases hd

theorem src_parse_route {route : JsonValue}
    {stop_map : List (List Char × List Char)} {now window_end : ℚ}
    {l : List Departure}
    (h : parse_route route stop_map now window_end = .ok l) :
    ∀ d ∈ l, srcTag d := by
  rw [parse_route.eq_def] at h
  split at h
  case h_2 => exact absurd h (by simp)
  rcases bind_eq_ok.mp h with ⟨ids, _, h2⟩
  rcases bind_eq_ok.mp h2 with ⟨ist, _, h3⟩
  rcases bind_eq_ok.mp h3 with ⟨sl, _, h4⟩
  refine foldlM_inv srcTag _ ?_ _ [] l (by intro d hd; cases hd) h4
  intro acc a out hs hacc
  rcases bind_eq_ok.mp hs with ⟨known, hknown, hrest⟩
  split at hrest
  · rcases pure_eq_ok.mp hrest with rfl
    intro d hd
    rcases List.mem_append.mp hd with h1 | h1
    · exact hacc d h1
    · exact src_parse_known_journeys hknown d h1
  · try simp only [pure_bind] at hrest
    rcases bind_eq_ok.mp hrest with ⟨plist, _, hfold⟩
    refine foldlM_inv srcTag _ ?_ _ acc out hacc hfold
    intro acc2 period out2 hs2 hacc2
    rcases bind_eq_ok.mp hs2 with ⟨xs, hxs, hout2⟩
    rcases pure_eq_ok.mp hout2 with rfl
    intro d hd
    rcases List.mem_append.mp hd with h1 | h1
    · exact hacc2 d h1
    · exact src_parse_schedule_period hxs d h1

theorem src_parse_departure_list {iso : List Char → Option ℚ}
    {departures : JsonValue} {now window_end : ℚ} {l : List Departure}
    (h : parse_departure_list iso departures now window_end = .ok l) :
    ∀ d ∈ l, srcTag d := by
  rw [parse_departure_list] at h
  rcases bind_eq_ok.mp h with ⟨items, _, h2⟩
  refine foldlM_inv srcTag _ ?_ _ [] l (by intro d hd; cases hd) h2
  intro acc a out hs hacc
  split at hs
  · rcases pure_eq_ok.mp hs with rfl; exact hacc
  · try simp only [pure_bind] at hs
    rcases bind_eq_ok.mp hs with ⟨w?, hw, hrest⟩
    cases w? with
    | none => rcases pure_eq_ok.mp hrest with rfl; exact hacc
    | some w =>
      simp only at hrest
      split at hrest
      · rcases pure_eq_ok.mp hrest with rfl; exact hacc
      · rcases bind_eq_ok.mp hrest with ⟨d0, _, hout⟩
        rcases pure_eq_ok.mp hout with rfl
        intro d hd
        rcases List.mem_append.mp hd with h1 | h1
        · exact hacc d h1
        · rcases List.mem_singleton.mp h1 with rfl; rfl

theorem dedupeAux_sublist :
    ∀ (l : List Departure) (seen : List (ℚ × List Char)),
      (dedupeAux seen l).Sublist l := by
  intro l
  induction l with
  | nil => intro seen; simp [dedupeAux]
  | cons x rest ih =>
    intro seen
    rw [dedupeAux]
    split
    · exact (ih _).cons x
    · exact (ih _).cons₂ x

theorem mem_dedupe {d : Departure} {l : List Departure} :
    d ∈ dedupe_departures l → d ∈ l :=
  fun h => (dedupeAux_sublist l []).subset h


theorem src_parse_timetable_container_step
    {recur : JsonValue → List (List Char × List Char) → ℚ → ℚ →
      Except Unit (List Departure)}
    (hrecur : ∀ c m now wend l, recur c m now wend = .ok l → ∀ d ∈ l, srcTag d)
    {container : JsonValue} {stop_map : List (List Char × List Char)}
    {now window_end : ℚ} {l : List Departure}
    (h : parse_timetable_container_step recur container stop_map now window_end
      = .ok l) :
    ∀ d ∈ l, srcTag d := by
  rw [parse_timetable_container_step.eq_def] at h
  split at h
  · refine foldlM_inv srcTag _ ?_ _ [] l (by intro d hd; cases hd) h
    intro acc a out hs hacc
    rcases bind_eq_ok.mp hs with ⟨xs, hxs, hout⟩
    rcases pure_eq_ok.mp hout with rfl
    intro d hd
    rcases List.mem_append.mp hd with h1 | h1
    · exact hacc d h1
    · exact hrecur _ _ _ _ _ hxs d h1
  · split at h
    · refine foldlM_inv srcTag _ ?_ _ [] l (by intro d hd; cases hd) h
      intro acc a out hs hacc
      rcases bind_eq_ok.mp hs with ⟨xs, hxs, hout⟩
      rcases pure_eq_ok.mp hout with rfl
      intro d hd
      rcases List.mem_append.mp hd with h1 | h1
      · exact hacc d h1
      · exact src_parse_route hxs d h1
    · rcases ok_eq_ok.mp h with rfl; intro d hd; cases hd
  · rcases ok_eq_ok.mp h with rfl; intro d hd; cases hd

theorem src_parse_timetable_containerF {iso : List Char → Option ℚ} :
    ∀ (fuel : Nat) (container : JsonValue)
      (stop_map : List (List Char × List Char)) (now window_end : ℚ)
      (l : List Departure),
      parse_timetable_containerF iso fuel container stop_map now window_end
        = .ok l → ∀ d ∈ l, srcTag d := by
  intro fuel
  induction fuel with
  | zero =>
    intro container stop_map now window_end l h
    rw [parse_timetable_containerF] at h
    rcases ok_eq_ok.mp h with rfl
    intro d hd; cases hd
  | succ n ih =>
    intro container stop_map now window_end l h
    rw [parse_timetable_containerF] at h
    exact src_parse_timetable_container_step (fun c m nw we l' h' => ih c m nw we l' h') h

theorem src_ttd_departures_part {iso : List Char → Option ℚ}
    {t : JsonValue} {now window_end : ℚ} {l : List Departure}
    (h : ttd_departures_part iso t now window_end = .ok l) :
    ∀ d ∈ l, srcTag d := by
  rw [ttd_departures_part] at h
  split at h
  · exact src_parse_departure_list h
  · rcases pure_eq_ok.mp h with rfl; intro d hd; cases hd

theorem src_ttd_timetables_part
    {recur : JsonValue → List Char → ℚ → ℚ → Except Unit (List Departure)}
    (hrecur : ∀ t sid now wend l, recur t sid now wend = .ok l → ∀ d ∈ l, srcTag d)
    {t : JsonValue} {stop_id : List Char} {now window_end : ℚ}
    {l : List Departure}
    (h : ttd_timetables_part recur t stop_id now window_end = .ok l) :
    ∀ d ∈ l, srcTag d := by
  rw [ttd_timetables_part] at h
  split at h
  · split at h
    · refine foldlM_inv srcTag _ ?_ _ [] l (by intro d hd; cases hd) h
      intro acc a out hs hacc
      rcases bind_eq_ok.mp hs with ⟨xs, hxs, hout⟩
      rcases pure_eq_ok.mp hout with rfl
      intro d hd
      rcases List.mem_append.mp hd with h1 | h1
      · exact hacc d h1
      · exact hrecur _ _ _ _ _ hxs d h1
    · rcases pure_eq_ok.mp h with rfl; intro d hd; cases hd
  · rcases pure_eq_ok.mp h with rfl; intro d hd; cases hd

theorem src_ttd_container_part
    {recurC : JsonValue → List (List Char × List Char) → ℚ → ℚ →
      Except Unit (List Departure)}
    (hrecurC : ∀ c m now wend l, recurC c m now wend = .ok l → ∀ d ∈ l, srcTag d)
    {t : JsonValue} {stop_map : List (List Char × List Char)}
    {now window_end : ℚ} {l : List Departure}
    (h : ttd_container_part recurC t stop_map now window_end = .ok l) :
    ∀ d ∈ l, srcTag d := by
  rw [ttd_container_part] at h
  split at h
  · exact hrecurC _ _ _ _ _ h
  · split at h
    · exact hrecurC _ _ _ _ _ h
    · rcases pure_eq_ok.mp h with rfl; intro d hd; cases hd

theorem src_timetable_to_departures_step {iso : List Char → Option ℚ}
    {recur : JsonValue → List Char → ℚ → ℚ → Except Unit (List Departure)}
    {recurC : JsonValue → List (List Char × List Char) → ℚ → ℚ →
      Except Unit (List Departure)}
    (hrecur : ∀ t sid now wend l, recur t sid now wend = .ok l → ∀ d ∈ l, srcTag d)
    (hrecurC : ∀ c m now wend l, recurC c m now wend = .ok l → ∀ d ∈ l, srcTag d)
    {t : JsonValue} {stop_id : List Char} {now window_end : ℚ}
    {l : List Departure}
    (h : timetable_to_departures_step iso recur recurC t stop_id now window_end
      = .ok l) :
    ∀ d ∈ l, srcTag d := by
  rw [timetable_to_departures_step.eq_def] at h
  split at h
  · refine foldlM_inv srcTag _ ?_ _ [] l (by intro d hd; cases hd) h
    intro acc a out hs hacc
    rcases bind_eq_ok.mp hs with ⟨xs, hxs, hout⟩
    rcases pure_eq_ok.mp hout with rfl
    intro d hd
    rcases List.mem_append.mp hd with h1 | h1
    · exact hacc d h1
    · exact hrecur _ _ _ _ _ hxs d h1
  · rcases bind_eq_ok.mp h with ⟨d1, hd1, h2⟩
    rcases bind_eq_ok.mp h2 with ⟨d2, hd2, h3⟩
    rcases bind_eq_ok.mp h3 with ⟨d3, hd3, h4⟩
    rcases pure_eq_ok.mp h4 with rfl
    intro d hd
    have hmem := mem_sortByWhen.mp (mem_dedupe hd)
    rcases List.mem_append.mp hmem with h12 | hin3
    · rcases List.mem_append.mp h12 with hin1 | hin2
      · exact src_ttd_departures_part hd1 d hin1
      · exact src_ttd_timetables_part hrecur hd2 d hin2
    · exact src_ttd_container_part hrecurC hd3 d hin3
  · rcases ok_eq_ok.mp h with rfl; intro d hd; cases hd

theorem src_timetable_to_departuresF {iso : List Char → Option ℚ} :
    ∀ (fuel : Nat) (t : JsonValue) (stop_id : List Char) (now window_end : ℚ)
      (l : List Departure),
      timetable_to_departuresF iso fuel t stop_id now window_end = .ok l →
      ∀ d ∈ l, srcTag d := by
  intro fuel
  induction fuel with
  | zero =>
    intro t stop_id now window_end l h
    rw [timetable_to_departuresF] at h
    rcases ok_eq_ok.mp h with rfl
    intro d hd; cases hd
  | succ n ih =>
    intro t stop_id now window_end l h
    rw [timetable_to_departuresF] at h
    exact src_timetable_to_departures_step
      (fun t' sid nw we l' h' => ih t' sid nw we l' h')
      (fun c m nw we l' h' => src_parse_timetable_containerF n c m nw we l' h') h

theorem jsize_pos (t : JsonValue) : 1 ≤ jsize t := by
  cases t <;> simp [jsize]

/-! ## Claim C7 (timetable expander tags everything `scheduled`) -/

/-- C7: every element of a successful `timetable_to_departures` decode has
`source = "timetable"` — the code's spelling of the spec's enum value
`scheduled` — so `source` never strays outside the two-tag enum and is
never `"live"`. -/
theorem C7_timetable_departures_source_scheduled
    (iso : List Char → Option ℚ) (t : JsonValue) (stop_id : List Char)
    (now window_end : ℚ) (l : List Departure)
    (h : timetable_to_departures iso t stop_id now window_end = .ok l) :
    ∀ d ∈ l, d.source = timetableTag := by
  rw [timetable_to_departures] at h
  exact src_timetable_to_departuresF _ _ _ _ _ _ h

/-- Witness for C7: a flat departure list decodes to one entry, tagged
`timetable`. -/
theorem C7_timetable_departures_source_scheduled_witness :
    timetable_to_departures (fun _ => none)
      (.obj [("departures".data,
        .arr [.obj [("time".data, .num 600),
          ("destination".data, .str "X".data)]])]) "s".data 0 3600
      = .ok [⟨600, "X".data, timetableTag, none, none, none⟩] ∧
    ∀ d ∈ [(⟨600, "X".data, timetableTag, none, none, none⟩ : Departure)],
      d.source = timetableTag :=
  ⟨by decide,
    C7_timetable_departures_source_scheduled (fun _ => none)
      (.obj [("departures".data,
        .arr [.obj [("time".data, .num 600),
          ("destination".data, .str "X".data)]])]) "s".data 0 3600 _
      (by decide)⟩

/-! ## Claim C3 (expansion output deduplicated and sorted) -/

theorem dedupeAux_pairwise :
    ∀ (l : List Departure) (seen : List (ℚ × List Char)),
      List.Pairwise (fun a b =>
        ¬((a.when, normalize_name a.destination)
          = (b.when, normalize_name b.destination))) (dedupeAux seen l) ∧
      ∀ d ∈ dedupeAux seen l,
        (d.when, normalize_name d.destination) ∉ seen := by
  intro l
  induction l with
  | nil =>
    intro seen
    refine ⟨List.Pairwise.nil, ?_⟩
    intro d hd
    simp [dedupeAux] at hd
  | cons x rest ih =>
    intro seen
    rw [dedupeAux]
    split
    · exact ih seen
    · rename_i hseen
      have hx : (x.when, normalize_name x.destination) ∉ seen := by
        intro hmem
        exact hseen (List.elem_eq_true_of_mem hmem)
      rcases ih ((x.when, normalize_name x.destination) :: seen) with ⟨hp, hnotin⟩
      constructor
      · refine List.Pairwise.cons ?_ hp
        intro b hb hkey
        have := hnotin b hb
        rw [← hkey] at this
        exact this (List.mem_cons_self _ _)
      · intro d hd
        rcases List.mem_cons.mp hd with rfl | hd'
        · exact hx
        · intro hmem
          exact hnotin d hd' (List.mem_cons_of_mem _ hmem)

theorem dedupe_departures_key_distinct (l : List Departure) :
    List.Pairwise (fun a b =>
      ¬(a.when = b.when ∧
        normalize_name a.destination = normalize_name b.destination))
      (dedupe_departures l) := by
  have := (dedupeAux_pairwise l []).1
  refine this.imp ?_
  intro a b hab ⟨h1, h2⟩
  exact hab (by rw [h1, h2])

theorem dedupe_departures_sorted (l : List Departure) :
    (dedupe_departures (sortByWhen l)).Sorted (fun a b => a.when ≤ b.when) :=
  (sortByWhen_sorted l).sublist (dedupeAux_sublist (sortByWhen l) [])

/-- C3 as frozen is false: a top-level array concatenates the per-element
results and returns them without the final dedupe/sort.  Two identical
flat timetables therefore produce two identical entries. -/
theorem C3_counterexample :
    timetable_to_departures (fun _ => none)
      (.arr [.obj [("departures".data,
          .arr [.obj [("time".data, .num 600),
            ("destination".data, .str "X".data)]])],
        .obj [("departures".data,
          .arr [.obj [("time".data, .num 600),
            ("destination".data, .str "X".data)]])]])
      "s".data 0 3600
      = .ok [⟨600, "X".data, timetableTag, none, none, none⟩,
        ⟨600, "X".data, timetableTag, none, none, none⟩] ∧
    ¬ List.Pairwise (fun a b =>
        ¬(a.when = b.when ∧
          normalize_name a.destination = normalize_name b.destination))
      [(⟨600, "X".data, timetableTag, none, none, none⟩ : Departure),
        ⟨600, "X".data, timetableTag, none, none, none⟩] :=
  ⟨by decide, by decide⟩

/-- C3 (amended): for every payload whose top level is *not* an array, a
successful `timetable_to_departures` decode contains no two entries with
the same exact `when` and the same `normalize_name` destination, and is
sorted ascending by `when`.  (A top-level array concatenates per-element
results without the final dedupe/sort.) -/
theorem C3_non_array_payload_dedupe_sorted
    (iso : List Char → Option ℚ) (t : JsonValue) (stop_id : List Char)
    (now window_end : ℚ) (l : List Departure)
    (hne : t.isArr = false)
    (h : timetable_to_departures iso t stop_id now window_end = .ok l) :
    List.Pairwise (fun a b =>
      ¬(a.when = b.when ∧
        normalize_name a.destination = normalize_name b.destination)) l ∧
    l.Sorted (fun a b => a.when ≤ b.when) := by
  rw [timetable_to_departures] at h
  obtain ⟨m, hm⟩ : ∃ m, jsize t = m + 1 := by
    have := jsize_pos t
    exact ⟨jsize t - 1, by omega⟩
  rw [hm, timetable_to_departuresF, timetable_to_departures_step.eq_def] at h
  split at h
  · simp [JsonValue.isArr] at hne
  · rcases bind_eq_ok.mp h with ⟨d1, hd1, h2⟩
    rcases bind_eq_ok.mp h2 with ⟨d2, hd2, h3⟩
    rcases bind_eq_ok.mp h3 with ⟨d3, hd3, h4⟩
    rcases pure_eq_ok.mp h4 with rfl
    exact ⟨dedupe_departures_key_distinct _, dedupe_departures_sorted _⟩
  · rcases ok_eq_ok.mp h with rfl
    exact ⟨List.Pairwise.nil, List.sorted_nil⟩

/-- Witness for C3 (amended): a flat dict timetable with out-of-order,
duplicated entries decodes to a sorted, key-deduplicated list. -/
theorem C3_non_array_payload_dedupe_sorted_witness :
    (JsonValue.obj [("departures".data,
      .arr [.obj [("time".data, .num 1200), ("destination".data, .str "X".data)],
        .obj [("time".data, .num 600), ("destination".data, .str "Y".data)],
        .obj [("time".data, .num 1200),
          ("destination".data, .str "X".data)]])]).isArr = false ∧
    timetable_to_departures (fun _ => none)
      (.obj [("departures".data,
        .arr [.obj [("time".data, .num 1200), ("destination".data, .str "X".data)],
          .obj [("time".data, .num 600), ("destination".data, .str "Y".data)],
          .obj [("time".data, .num 1200),
            ("destination".data, .str "X".data)]])]) "s".data 0 3600
      = .ok [⟨600, "Y".data, timetableTag, none, none, none⟩,
        ⟨1200, "X".data, timetableTag, none, none, none⟩] ∧
    (List.Pairwise (fun a b =>
      ¬(a.when = b.when ∧
        normalize_name a.destination = normalize_name b.destination))
      [(⟨600, "Y".data, timetableTag, none, none, none⟩ : Departure),
        ⟨1200, "X".data, timetableTag, none, none, none⟩] ∧
    List.Sorted (fun a b => a.when ≤ b.when)
      [(⟨600, "Y".data, timetableTag, none, none, none⟩ : Departure),
        ⟨1200, "X".data, timetableTag, none, none, none⟩]) :=
  ⟨by decide, by decide,
    C3_non_array_payload_dedupe_sorted (fun _ => none)
      (.obj [("departures".data,
        .arr [.obj [("time".data, .num 1200), ("destination".data, .str "X".data)],
          .obj [("time".data, .num 600), ("destination".data, .str "Y".data)],
          .obj [("time".data, .num 1200),
            ("destination".data, .str "X".data)]])]) "s".data 0 3600 _
      (by decide) (by decide)⟩

/-! ## Frequency-loop lemmas (claims C4 and C9) -/

theorem qLeB_eq_decide (a b : ℚ) : qLeB a b = decide (a ≤ b) := by
  cases hq : qLeB a b
  · have : ¬ a ≤ b := fun hc => by rw [qLeB_iff.mpr hc] at hq; cases hq
    simp [this]
  · simp [qLeB_iff.mp hq]

theorem qLtB_eq_decide (a b : ℚ) : qLtB a b = decide (a < b) := by
  cases hq : qLtB a b
  · have : ¬ a < b := fun hc => by rw [qLtB_iff.mpr hc] at hq; cases hq
    simp [this]
  · simp [qLtB_iff.mp hq]

theorem freqFuel_eq (e w step c : ℚ) :
    freqFuel e w step c = (⌊(min e w - c) / step⌋ + 1).toNat := by
  rw [freqFuel, qFloorI_eq, qDiv_eq, qSub_eq, qMin_eq]

theorem freqLoopF_succ (e w step off now : ℚ) (fuel : Nat) (c : ℚ) :
    freqLoopF e w step off now (fuel + 1) c
      = if c ≤ e ∧ c ≤ w then
          (if now ≤ c + off ∧ c + off ≤ w then [c + off] else []) ++
            freqLoopF e w step off now fuel (c + step)
        else [] := by
  rw [freqLoopF]
  simp only [qLeB_eq_decide, qAdd_eq, Bool.and_eq_true, decide_eq_true_eq]

theorem freqFuel_pos {e w step c : ℚ} (hstep : 0 < step)
    (h : c ≤ e ∧ c ≤ w) : 1 ≤ freqFuel e w step c := by
  rw [freqFuel_eq]
  have hnum : (0 : ℚ) ≤ min e w - c := by
    have := le_min h.1 h.2
    linarith
  have hdiv : (0 : ℚ) ≤ (min e w - c) / step := div_nonneg hnum hstep.le
  have hfl : 0 ≤ ⌊(min e w - c) / step⌋ := Int.floor_nonneg.mpr hdiv
  omega

theorem freqFuel_zero {e w step c : ℚ} (hstep : 0 < step)
    (h : ¬(c ≤ e ∧ c ≤ w)) : freqFuel e w step c = 0 := by
  rw [freqFuel_eq]
  have hlt : min e w < c := by
    rcases not_and_or.mp h with h1 | h1
    · exact lt_of_le_of_lt (min_le_left e w) (not_le.mp h1)
    · exact lt_of_le_of_lt (min_le_right e w) (not_le.mp h1)
  have hneg : (min e w - c) / step < 0 := div_neg_of_neg_of_pos (by linarith) hstep
  have hfl : ⌊(min e w - c) / step⌋ < 0 := Int.floor_lt.mpr (by simpa using hneg)
  omega

theorem freqFuel_step {e w step c : ℚ} (hstep : 0 < step) :
    freqFuel e w step (c + step) = freqFuel e w step c - 1 := by
  rw [freqFuel_eq, freqFuel_eq]
  have : (min e w - (c + step)) / step = (min e w - c) / step - 1 := by
    field_simp
    ring
  rw [this, Int.floor_sub_one]
  omega

theorem freqLoopF_length_le {e w step : ℚ} (off now : ℚ) (hstep : 0 < step) :
    ∀ (fuel : Nat) (c : ℚ),
      (freqLoopF e w step off now fuel c).length ≤ freqFuel e w step c := by
  intro fuel
  induction fuel with
  | zero => intro c; simp [freqLoopF]
  | succ n ih =>
    intro c
    rw [freqLoopF_succ]
    by_cases h1 : c ≤ e ∧ c ≤ w
    · rw [if_pos h1]
      have hk := freqFuel_step (e := e) (w := w) (c := c) hstep
      have h2 := freqFuel_pos hstep h1
      have h3 := ih (c + step)
      rw [List.length_append]
      have hemit : (if now ≤ c + off ∧ c + off ≤ w then [c + off] else []).length ≤ 1 := by
        split <;> simp
      omega
    · rw [if_neg h1]
      simp

theorem freqLoopF_stable {e w step : ℚ} (off now : ℚ) (hstep : 0 < step) :
    ∀ (n m : Nat) (c : ℚ), freqFuel e w step c ≤ n → freqFuel e w step c ≤ m →
      freqLoopF e w step off now n c = freqLoopF e w step off now m c := by
  intro n
  induction n with
  | zero =>
    intro m c hn hm
    have h0 : freqFuel e w step c = 0 := by omega
    by_cases h1 : c ≤ e ∧ c ≤ w
    · exact absurd h0 (by have := freqFuel_pos hstep h1; omega)
    · cases m with
      | zero => rfl
      | succ m' => rw [freqLoopF_succ, if_neg h1]; rfl
  | succ n' ih =>
    intro m c hn hm
    by_cases h1 : c ≤ e ∧ c ≤ w
    · have h2 := freqFuel_pos hstep h1
      cases m with
      | zero => omega
      | succ m' =>
        rw [freqLoopF_succ, freqLoopF_succ, if_pos h1, if_pos h1]
        have hk := freqFuel_step (e := e) (w := w) (c := c) hstep
        rw [ih m' (c + step) (by omega) (by omega)]
    · cases m with
      | zero => rw [freqLoopF_succ, if_neg h1]; rfl
      | succ m' => rw [freqLoopF_succ, freqLoopF_succ, if_neg h1, if_neg h1]

theorem freqLoopF_closed {e w step : ℚ} (now : ℚ) (hstep : 0 < step) :
    ∀ (fuel : Nat) (c : ℚ), now ≤ c → freqFuel e w step c ≤ fuel →
      freqLoopF e w step 0 now fuel c
        = (List.range (freqFuel e w step c)).map
            (fun (k : Nat) => c + (k : ℚ) * step) := by
  intro fuel
  induction fuel with
  | zero =>
    intro c hnow hfuel
    have h0 : freqFuel e w step c = 0 := by omega
    rw [h0]
    rfl
  | succ n ih =>
    intro c hnow hfuel
    by_cases h1 : c ≤ e ∧ c ≤ w
    · rw [freqLoopF_succ, if_pos h1]
      have hemit : (if now ≤ c + 0 ∧ c + 0 ≤ w then [c + 0] else []) = [c] := by
        rw [if_pos (by constructor <;> [linarith; linarith])]
        norm_num
      rw [hemit]
      have hk := freqFuel_step (e := e) (w := w) (c := c) hstep
      have h2 := freqFuel_pos hstep h1
      rw [ih (c + step) (by linarith) (by omega)]
      obtain ⟨M, hM⟩ : ∃ M, freqFuel e w step c = M + 1 := ⟨freqFuel e w step c - 1, by omega⟩
      rw [hM]
      have hM2 : freqFuel e w step (c + step) = M := by omega
      rw [hM2, List.range_succ_eq_map, List.map_cons, List.map_map]
      simp only [Nat.cast_zero, zero_mul, add_zero, List.cons_append,
        List.nil_append]
      congr 1
      refine List.map_congr_left ?_
      intro k _
      simp only [Function.comp_apply]
      push_cast
      ring
    · rw [freqLoopF_succ, if_neg h1, freqFuel_zero hstep h1]
      rfl

theorem advance_first (start now step : ℚ) (hstep : 0 < step) (hlt : start < now) :
    now ≤ (if start + (⌊(now - start) / step⌋ : ℚ) * step < now then
        start + (⌊(now - start) / step⌋ : ℚ) * step + step
      else start + (⌊(now - start) / step⌋ : ℚ) * step) ∧
    (if start + (⌊(now - start) / step⌋ : ℚ) * step < now then
        start + (⌊(now - start) / step⌋ : ℚ) * step + step
      else start + (⌊(now - start) / step⌋ : ℚ) * step) < now + step ∧
    ∃ k : ℕ, (if start + (⌊(now - start) / step⌋ : ℚ) * step < now then
        start + (⌊(now - start) / step⌋ : ℚ) * step + step
      else start + (⌊(now - start) / step⌋ : ℚ) * step)
      = start + (k : ℚ) * step := by
  set F : ℤ := ⌊(now - start) / step⌋ with hF
  have hfl : (F : ℚ) ≤ (now - start) / step := Int.floor_le _
  have hfl2 : (now - start) / step < (F : ℚ) + 1 := by
    have := Int.lt_floor_add_one ((now - start) / step)
    push_cast at this
    linarith
  have hsn : 0 ≤ F := Int.floor_nonneg.mpr (div_nonneg (by linarith) hstep.le)
  have hc_le : start + (F : ℚ) * step ≤ now := by
    have h1 : (F : ℚ) * step ≤ now - start := by
      rw [← le_div_iff₀ hstep]
      exact hfl
    linarith
  have hc_add : now < start + (F : ℚ) * step + step := by
    have h1 : now - start < ((F : ℚ) + 1) * step := by
      rw [← div_lt_iff₀ hstep]
      exact hfl2
    nlinarith
  by_cases hc : start + (F : ℚ) * step < now
  · simp only [if_pos hc]
    refine ⟨by linarith, by linarith, (F + 1).toNat, ?_⟩
    have : ((F + 1).toNat : ℚ) = (F : ℚ) + 1 := by
      have : ((F + 1).toNat : ℤ) = F + 1 := Int.toNat_of_nonneg (by omega)
      exact_mod_cast this
    rw [this]
    ring
  · simp only [if_neg hc]
    refine ⟨not_lt.mp hc, by linarith, F.toNat, ?_⟩
    have : ((F.toNat : ℚ)) = (F : ℚ) := by
      have : ((F.toNat : ℤ)) = F := Int.toNat_of_nonneg hsn
      exact_mod_cast this
    rw [this]

theorem grid_mem {N : ℕ} {c step x : ℚ}
    (hx : x ∈ (List.range N).map (fun (k : ℕ) => c + (k : ℚ) * step)) :
    ∃ k : ℕ, k < N ∧ x = c + (k : ℚ) * step := by
  rcases List.mem_map.mp hx with ⟨k, hk, rfl⟩
  exact ⟨k, List.mem_range.mp hk, rfl⟩

theorem grid_head {N : ℕ} (hN : N ≠ 0) (c step : ℚ) :
    ((List.range N).map (fun (k : ℕ) => c + (k : ℚ) * step)).head? = some c := by
  cases N with
  | zero => exact absurd rfl hN
  | succ n =>
    rw [List.range_succ_eq_map, List.map_cons]
    norm_num

theorem grid_chain (step : ℚ) :
    ∀ (N : ℕ) (c : ℚ),
      List.Chain' (fun x y => y = x + step)
        ((List.range N).map (fun (k : ℕ) => c + (k : ℚ) * step)) := by
  intro N
  induction N with
  | zero => intro c; simp
  | succ n ih =>
    intro c
    rw [List.range_succ_eq_map, List.map_cons, List.map_map]
    have hmap : (List.map ((fun (k : ℕ) => c + (k : ℚ) * step) ∘ Nat.succ)
        (List.range n)) = (List.range n).map (fun (k : ℕ) => (c + step) + (k : ℚ) * step) := by
      refine List.map_congr_left ?_
      intro k _
      simp only [Function.comp_apply]
      push_cast
      ring
    rw [hmap]
    refine List.Chain'.cons' (ih (c + step)) ?_
    intro y hy
    cases n with
    | zero => simp at hy
    | succ m =>
      rw [grid_head (Nat.succ_ne_zero m) (c + step) step] at hy
      cases hy
      norm_num

theorem grid_last {N : ℕ} (hN : N ≠ 0) (c step : ℚ) :
    ((List.range N).map (fun (k : ℕ) => c + (k : ℚ) * step)).getLast?
      = some (c + ((N - 1 : ℕ) : ℚ) * step) := by
  cases N with
  | zero => exact absurd rfl hN
  | succ n =>
    rw [List.range_succ, List.map_append]
    simp

theorem grid_head_inv {N : ℕ} {c step x : ℚ}
    (h : ((List.range N).map (fun (k : ℕ) => c + (k : ℚ) * step)).head?
      = some x) : x = c := by
  cases N with
  | zero => simp at h
  | succ n =>
    rw [grid_head (Nat.succ_ne_zero n) c step] at h
    exact (Option.some.inj h).symm

theorem grid_last_inv {N : ℕ} {c step x : ℚ}
    (h : ((List.range N).map (fun (k : ℕ) => c + (k : ℚ) * step)).getLast?
      = some x) :
    N ≠ 0 ∧ x = c + ((N - 1 : ℕ) : ℚ) * step := by
  cases N with
  | zero => simp at h
  | succ n =>
    refine ⟨Nat.succ_ne_zero n, ?_⟩
    rw [grid_last (Nat.succ_ne_zero n) c step] at h
    exact (Option.some.inj h).symm

/-! ## Claim C9 (the frequency loop terminates and is bounded) -/

/-- C9: the `while` loop of `_parse_schedule_period` terminates for every
strictly positive step: running it with any fuel at least `freqFuel` (the
span up to `min end_dt windowEnd` divided by the step, plus one) gives the
same result as running it with exactly `freqFuel`, and the number of
emitted instants never exceeds `freqFuel` whatever the fuel.  Non-positive
frequencies never reach the loop (`parse_schedule_period` returns `[]`
first). -/
theorem C9_freq_loop_terminates (e w step off now current : ℚ)
    (hstep : 0 < step) :
    (∀ fuel, freqFuel e w step current ≤ fuel →
      freqLoopF e w step off now fuel current
        = freqLoopF e w step off now (freqFuel e w step current) current) ∧
    (∀ fuel, (freqLoopF e w step off now fuel current).length
      ≤ freqFuel e w step current) := by
  constructor
  · intro fuel hf
    exact freqLoopF_stable off now hstep fuel (freqFuel e w step current)
      current hf le_rfl
  · intro fuel
    exact freqLoopF_length_le off now hstep fuel current

/-- Witness for C9 at the worked example's values: end 09:00 (32400 s),
window end 36000 s, step 600 s, now 08:23 (30180 s), current 08:30
(30600 s). -/
theorem C9_freq_loop_terminates_witness :
    (0 : ℚ) < 600 ∧
    ((∀ fuel, freqFuel 32400 36000 600 30600 ≤ fuel →
      freqLoopF 32400 36000 600 0 30180 fuel 30600
        = freqLoopF 32400 36000 600 0 30180
            (freqFuel 32400 36000 600 30600) 30600) ∧
    (∀ fuel, (freqLoopF 32400 36000 600 0 30180 fuel 30600).length
      ≤ freqFuel 32400 36000 600 30600)) :=
  ⟨by norm_num,
    C9_freq_loop_terminates 32400 36000 600 0 30180 30600 (by norm_num)⟩

theorem mapM_mk_when {dest : JsonValue} {stops : Option (List (List Char))} :
    ∀ (ws : List ℚ) (l : List Departure),
      (ws.mapM (fun w => do
        let d ← destStr dest
        pure (⟨w, d, timetableTag, none, stopsOf stops, none⟩ : Departure)))
        = .ok l →
      l.map Departure.when = ws := by
  intro ws
  induction ws with
  | nil =>
    intro l h
    rcases pure_eq_ok.mp h with rfl
    rfl
  | cons w ws ih =>
    intro l h
    rw [List.mapM_cons] at h
    rcases bind_eq_ok.mp h with ⟨d0, hd0, h2⟩
    rcases bind_eq_ok.mp h2 with ⟨ds, hds, h3⟩
    rcases pure_eq_ok.mp h3 with rfl
    rcases bind_eq_ok.mp hd0 with ⟨dn, hdn, h4⟩
    rcases pure_eq_ok.mp h4 with rfl
    simp [ih ds hds]

theorem schedule_current_props (start_dt now freq : ℚ) (hfreq : 0 < freq) :
    now ≤ (if qLtB start_dt now = true then
      if qLtB (qAdd start_dt (qMul (qMul (intToQ (qFloorI (qDiv (qDiv (qSub now start_dt) (intToQ 60)) freq))) freq) (intToQ 60))) now = true then
        qAdd (qAdd start_dt (qMul (qMul (intToQ (qFloorI (qDiv (qDiv (qSub now start_dt) (intToQ 60)) freq))) freq) (intToQ 60))) (qMul freq (intToQ 60))
      else qAdd start_dt (qMul (qMul (intToQ (qFloorI (qDiv (qDiv (qSub now start_dt) (intToQ 60)) freq))) freq) (intToQ 60))
    else start_dt) ∧
    ((if qLtB start_dt now = true then
      if qLtB (qAdd start_dt (qMul (qMul (intToQ (qFloorI (qDiv (qDiv (qSub now start_dt) (intToQ 60)) freq))) freq) (intToQ 60))) now = true then
        qAdd (qAdd start_dt (qMul (qMul (intToQ (qFloorI (qDiv (qDiv (qSub now start_dt) (intToQ 60)) freq))) freq) (intToQ 60))) (qMul freq (intToQ 60))
      else qAdd start_dt (qMul (qMul (intToQ (qFloorI (qDiv (qDiv (qSub now start_dt) (intToQ 60)) freq))) freq) (intToQ 60))
    else start_dt) = start_dt ∨ (if qLtB start_dt now = true then
      if qLtB (qAdd start_dt (qMul (qMul (intToQ (qFloorI (qDiv (qDiv (qSub now start_dt) (intToQ 60)) freq))) freq) (intToQ 60))) now = true then
        qAdd (qAdd start_dt (qMul (qMul (intToQ (qFloorI (qDiv (qDiv (qSub now start_dt) (intToQ 60)) freq))) freq) (intToQ 60))) (qMul freq (intToQ 60))
      else qAdd start_dt (qMul (qMul (intToQ (qFloorI (qDiv (qDiv (qSub now start_dt) (intToQ 60)) freq))) freq) (intToQ 60))
    else start_dt) < now + freq * 60) ∧
    ∃ k : ℕ, (if qLtB start_dt now = true then
      if qLtB (qAdd start_dt (qMul (qMul (intToQ (qFloorI (qDiv (qDiv (qSub now start_dt) (intToQ 60)) freq))) freq) (intToQ 60))) now = true then
        qAdd (qAdd start_dt (qMul (qMul (intToQ (qFloorI (qDiv (qDiv (qSub now start_dt) (intToQ 60)) freq))) freq) (intToQ 60))) (qMul freq (intToQ 60))
      else qAdd start_dt (qMul (qMul (intToQ (qFloorI (qDiv (qDiv (qSub now start_dt) (intToQ 60)) freq))) freq) (intToQ 60))
    else start_dt) = start_dt + (k : ℚ) * (freq * 60) := by
  have hstep60 : qMul freq (intToQ 60) = freq * 60 := by
    rw [qMul_eq, intToQ_eq]
    push_cast
    ring
  by_cases hb : qLtB start_dt now = true
  · have hlt : start_dt < now := qLtB_iff.mp hb
    rw [if_pos hb]
    have hx : qDiv (qDiv (qSub now start_dt) (intToQ 60)) freq
        = (now - start_dt) / (freq * 60) := by
      rw [qDiv_eq, qDiv_eq, qSub_eq, intToQ_eq]
      push_cast
      rw [div_div, mul_comm]
    have hfl : qFloorI (qDiv (qDiv (qSub now start_dt) (intToQ 60)) freq)
        = ⌊(now - start_dt) / (freq * 60)⌋ := by
      rw [qFloorI_eq, hx]
    have hA : qAdd start_dt (qMul (qMul (intToQ (qFloorI (qDiv (qDiv (qSub now start_dt) (intToQ 60)) freq))) freq) (intToQ 60))
        = start_dt + ((⌊(now - start_dt) / (freq * 60)⌋ : ℤ) : ℚ) * (freq * 60) := by
      rw [hfl, qAdd_eq, qMul_eq, qMul_eq, intToQ_eq, intToQ_eq]
      push_cast
      ring
    rw [hA, hstep60, qAdd_eq]
    have hadv := advance_first start_dt now (freq * 60)
      (mul_pos hfreq (by norm_num)) hlt
    by_cases hcc : start_dt
        + ((⌊(now - start_dt) / (freq * 60)⌋ : ℤ) : ℚ) * (freq * 60) < now
    · rw [if_pos (qLtB_iff.mpr hcc)]
      rw [if_pos hcc] at hadv
      exact ⟨hadv.1, Or.inr hadv.2.1, hadv.2.2⟩
    · rw [if_neg (fun hcon => hcc (qLtB_iff.mp hcon))]
      rw [if_neg hcc] at hadv
      exact ⟨hadv.1, Or.inr hadv.2.1, hadv.2.2⟩
  · rw [if_neg hb]
    have hge : now ≤ start_dt := by
      by_contra hc
      exact hb (qLtB_iff.mpr (not_le.mp hc))
    refine ⟨hge, Or.inl rfl, 0, ?_⟩
    push_cast
    ring

theorem grid_point_le {e w step c : ℚ} (hstep : 0 < step) {k : ℕ}
    (hk : k < freqFuel e w step c) : c + (k : ℚ) * step ≤ min e w := by
  rw [freqFuel_eq] at hk
  have hkF : (k : ℤ) ≤ ⌊(min e w - c) / step⌋ := by omega
  have h1 : ((k : ℚ)) ≤ (min e w - c) / step :=
    le_trans (by exact_mod_cast hkF) (Int.floor_le _)
  have h2 : (k : ℚ) * step ≤ min e w - c := (le_div_iff₀ hstep).mp h1
  linarith

theorem grid_last_overshoot {e w step c : ℚ} (hstep : 0 < step)
    (hN : freqFuel e w step c ≠ 0) :
    min e w < c + ((freqFuel e w step c - 1 : ℕ) : ℚ) * step + step := by
  rw [freqFuel_eq] at hN ⊢
  have hF : 0 ≤ ⌊(min e w - c) / step⌋ := by omega
  have hcast : (((⌊(min e w - c) / step⌋ + 1).toNat - 1 : ℕ) : ℚ)
      = ((⌊(min e w - c) / step⌋ : ℤ) : ℚ) := by
    have hn : ((⌊(min e w - c) / step⌋ + 1).toNat - 1 : ℕ)
        = (⌊(min e w - c) / step⌋).toNat := by omega
    rw [hn]
    exact_mod_cast Int.toNat_of_nonneg hF
  rw [hcast]
  have h1 : (min e w - c) / step < (⌊(min e w - c) / step⌋ : ℚ) + 1 := by
    have := Int.lt_floor_add_one ((min e w - c) / step)
    push_cast at this ⊢
    linarith
  have h2 : min e w - c < ((⌊(min e w - c) / step⌋ : ℚ) + 1) * step :=
    (div_lt_iff₀ hstep).mp h1
  nlinarith

/-! ## Claim C4 (frequency expansion semantics) -/

/-- C4: for a `start`/`end`/`frequency` period (parsed values given by the
hypotheses, offset 0 as at every call site): a non-positive frequency
yields no instances; for a positive frequency every emitted instant lies
in `[now, windowEnd]`, never precedes `now`, is bounded by the (midnight-
adjusted) `end` inclusive, and sits on the grid `start + k·frequency`
minutes; the first instant is `start` itself or lies within one frequency
step after `now` (the first grid point at or after `now`); consecutive
instants are exactly `frequency` minutes apart; and the expansion stops
only once the next step would overshoot `min end windowEnd`. -/
theorem C4_frequency_expansion
    (period destination : JsonValue) (now window_end : ℚ)
    (stops : Option (List (List Char))) (l : List Departure)
    (start_dt end_dt0 freq : ℚ)
    (hnotimes : (period.get "times".data).isArr = false)
    (hs : parse_time_value (pyOr (period.get "startTime".data)
      (period.get "fromTime".data)) (todayOf now) = .ok (some start_dt))
    (he : parse_time_value (pyOr (period.get "endTime".data)
      (period.get "toTime".data)) (todayOf now) = .ok (some end_dt0))
    (hf : pyFloat (period.get "frequency".data) = .ok freq)
    (h : parse_schedule_period period destination 0 now window_end stops
      = .ok l) :
    (freq ≤ 0 → l = []) ∧
    (0 < freq →
      (∀ d ∈ l,
        now ≤ d.when ∧ d.when ≤ window_end ∧
        d.when ≤ (if end_dt0 < start_dt then end_dt0 + 86400 else end_dt0) ∧
        ∃ k : ℕ, d.when = start_dt + (k : ℚ) * (freq * 60)) ∧
      (∀ d0, l.head? = some d0 →
        d0.when = start_dt ∨ d0.when < now + freq * 60) ∧
      List.Chain' (fun a b => b.when = a.when + freq * 60) l ∧
      (∀ dn, l.getLast? = some dn →
        min (if end_dt0 < start_dt then end_dt0 + 86400 else end_dt0)
          window_end < dn.when + freq * 60)) := by
  have base : (freq ≤ 0 → ([] : List Departure) = []) ∧
      (0 < freq →
        (∀ d ∈ ([] : List Departure),
          now ≤ d.when ∧ d.when ≤ window_end ∧
          d.when ≤ (if end_dt0 < start_dt then end_dt0 + 86400 else end_dt0) ∧
          ∃ k : ℕ, d.when = start_dt + (k : ℚ) * (freq * 60)) ∧
        (∀ d0, ([] : List Departure).head? = some d0 →
          d0.when = start_dt ∨ d0.when < now + freq * 60) ∧
        List.Chain' (fun a b => b.when = a.when + freq * 60)
          ([] : List Departure) ∧
        (∀ dn, ([] : List Departure).getLast? = some dn →
          min (if end_dt0 < start_dt then end_dt0 + 86400 else end_dt0)
            window_end < dn.when + freq * 60)) := by
    refine ⟨fun _ => rfl, fun _ => ⟨?_, ?_, ?_, ?_⟩⟩
    · intro d hd; cases hd
    · intro d0 h0; simp at h0
    · exact List.chain'_nil
    · intro dn h0; simp at h0
  rw [parse_schedule_period] at h
  split at h
  · rcases pure_eq_ok.mp h with rfl; exact base
  · try simp only [pure_bind] at h
    split at h
    · rename_i items heq
      rw [heq] at hnotimes
      simp [JsonValue.isArr] at hnotimes
    · split at h
      · rcases pure_eq_ok.mp h with rfl; exact base
      · try simp only [pure_bind] at h
        rcases bind_eq_ok.mp h with ⟨s?, hs', h2⟩
        rcases bind_eq_ok.mp h2 with ⟨e?, he', h3⟩
        have hseq := ok_eq_ok.mp (hs'.symm.trans hs)
        have heeq := ok_eq_ok.mp (he'.symm.trans he)
        subst hseq
        subst heeq
        simp only at h3
        rcases bind_eq_ok.mp h3 with ⟨fq, hfq', h4⟩
        have hfeq := ok_eq_ok.mp (hfq'.symm.trans hf)
        rw [hfeq] at h4
        split at h4
        · -- frequency ≤ 0
          rename_i hle
          rcases pure_eq_ok.mp h4 with rfl
          exact base
        · rename_i hgt
          have hfreqpos : 0 < freq := by
            by_contra hc
            exact hgt (by
              rw [qLeB_eq_decide, intToQ_eq]
              push_cast
              simpa using not_lt.mp hc)
          try simp only [pure_bind] at h4
          have hstep60 : qMul freq (intToQ 60) = freq * 60 := by
            rw [qMul_eq, intToQ_eq]
            push_cast
            ring
          have hoff : qMul (intToQ 0) (intToQ 60) = (0 : ℚ) := by
            rw [qMul_eq, intToQ_eq, intToQ_eq]
            push_cast
            ring
          rw [hoff] at h4
          have hSpos : (0 : ℚ) < qMul freq (intToQ 60) := by
            rw [hstep60]
            positivity
          obtain ⟨hnowC, hfirstC, hgridC⟩ :=
            schedule_current_props start_dt now freq hfreqpos
          rw [freqLoopF_closed now hSpos _ _ hnowC le_rfl] at h4
          have hwhen := mapM_mk_when _ _ h4
          have hE : (if qLtB end_dt0 start_dt = true then
                qAdd end_dt0 (intToQ 86400) else end_dt0)
              = (if end_dt0 < start_dt then end_dt0 + 86400 else end_dt0) := by
            by_cases hlt : end_dt0 < start_dt
            · rw [if_pos (qLtB_iff.mpr hlt), if_pos hlt, qAdd_eq, intToQ_eq]
              push_cast
              ring
            · rw [if_neg (fun hc => hlt (qLtB_iff.mp hc)), if_neg hlt]
          refine ⟨fun hle => absurd hfreqpos (not_lt.mpr hle),
            fun _ => ⟨?_, ?_, ?_, ?_⟩⟩
          · intro d hd
            have hdw : d.when ∈ l.map Departure.when :=
              List.mem_map_of_mem _ hd
            rw [hwhen] at hdw
            obtain ⟨k, hkN, hkeq⟩ := grid_mem hdw
            have hle := grid_point_le hSpos hkN
            obtain ⟨k0, hk0⟩ := hgridC
            refine ⟨?_, ?_, ?_, ⟨k0 + k, ?_⟩⟩
            · rw [hkeq]
              have hnn : (0 : ℚ) ≤ (k : ℚ) * qMul freq (intToQ 60) :=
                mul_nonneg (Nat.cast_nonneg k) hSpos.le
              linarith
            · rw [hkeq]
              exact le_trans hle (min_le_right _ _)
            · rw [hkeq]
              exact le_trans hle (le_trans (min_le_left _ _) (le_of_eq hE))
            · rw [hkeq, hk0, hstep60]
              push_cast
              ring
          · intro d0 h0
            have h0w : (l.map Departure.when).head? = some d0.when := by
              rw [List.head?_map, h0]
              rfl
            rw [hwhen] at h0w
            rw [grid_head_inv h0w]
            exact hfirstC
          · have hchain : List.Chain' (fun x y => y = x + qMul freq (intToQ 60))
                (l.map Departure.when) := by
              rw [hwhen]
              exact grid_chain _ _ _
            rw [List.chain'_map] at hchain
            rw [hstep60] at hchain
            exact hchain
          · intro dn hn
            have hnw : (l.map Departure.when).getLast? = some dn.when := by
              rw [List.getLast?_map, hn]
              rfl
            rw [hwhen] at hnw
            obtain ⟨hN0, hdn⟩ := grid_last_inv hnw
            have hover := grid_last_overshoot hSpos hN0
            rw [hdn, ← hE, ← hstep60]
            exact hover

/-- Witness for C4: the concrete period 08:00–09:00 every 10 minutes,
evaluated at `now` = 08:23 with window end 10:00; the parsed start is
28800 s, the parsed end 32400 s, the frequency 10. -/
theorem C4_frequency_expansion_witness :
    (intToQ 10 ≤ 0 → c4expansion = []) ∧
    (0 < intToQ 10 →
      (∀ d ∈ c4expansion,
        intToQ 30180 ≤ d.when ∧ d.when ≤ intToQ 36000 ∧
        d.when ≤ (if intToQ 32400 < intToQ 28800 then intToQ 32400 + 86400
          else intToQ 32400) ∧
        ∃ k : ℕ, d.when = intToQ 28800 + (k : ℚ) * (intToQ 10 * 60)) ∧
      (∀ d0, c4expansion.head? = some d0 →
        d0.when = intToQ 28800 ∨ d0.when < intToQ 30180 + intToQ 10 * 60) ∧
      List.Chain' (fun a b => b.when = a.when + intToQ 10 * 60) c4expansion ∧
      (∀ dn, c4expansion.getLast? = some dn →
        min (if intToQ 32400 < intToQ 28800 then intToQ 32400 + 86400
            else intToQ 32400)
          (intToQ 36000) < dn.when + intToQ 10 * 60)) :=
  C4_frequency_expansion c4period (.str "X".data) (intToQ 30180)
    (intToQ 36000) none c4expansion (intToQ 28800) (intToQ 32400)
    (intToQ 10) (by decide) (by decide) (by decide) (by decide) (by decide)

/-! ## String-layer lemmas for destination canonicalization (claim C8) -/

theorem dropWhile_idem (p : Char → Bool) (l : List Char) :
    (l.dropWhile p).dropWhile p = l.dropWhile p := by
  induction l with
  | nil => rfl
  | cons x t ih =>
    by_cases h : p x
    · rw [List.dropWhile_cons_of_pos h]
      exact ih
    · rw [List.dropWhile_cons_of_neg h, List.dropWhile_cons_of_neg h]

theorem dropWhile_append_pos {p : Char → Bool} {u : List Char} {x : Char}
    {xs : List Char} (h : u.dropWhile p = x :: xs) (w : List Char) :
    (u ++ w).dropWhile p = x :: (xs ++ w) := by
  induction u with
  | nil => simp at h
  | cons y t ih =>
    by_cases hy : p y
    · rw [List.dropWhile_cons_of_pos hy] at h
      rw [List.cons_append, List.dropWhile_cons_of_pos hy]
      exact ih h
    · rw [List.dropWhile_cons_of_neg hy] at h
      rcases h with ⟨rfl, rfl⟩
      rw [List.cons_append, List.dropWhile_cons_of_neg hy]

theorem dropWhile_append_nil {p : Char → Bool} {u : List Char}
    (h : u.dropWhile p = []) (w : List Char) :
    (u ++ w).dropWhile p = w.dropWhile p := by
  induction u with
  | nil => rfl
  | cons y t ih =>
    by_cases hy : p y
    · rw [List.dropWhile_cons_of_pos hy] at h
      rw [List.cons_append, List.dropWhile_cons_of_pos hy]
      exact ih h
    · rw [List.dropWhile_cons_of_neg hy] at h
      cases h

theorem getLast?_append_right {l l' : List Char} (h : l' ≠ []) :
    (l ++ l').getLast? = l'.getLast? := by
  induction l with
  | nil => rfl
  | cons x t ih =>
    rw [List.cons_append]
    have hne : t ++ l' ≠ [] := by
      intro hc
      exact h (List.append_eq_nil.mp hc).2
    rcases he : t ++ l' with _ | ⟨y, ys⟩
    · exact absurd he hne
    · rw [List.getLast?_cons_cons, ← he]
      exact ih

theorem dropWhile_head_not {p : Char → Bool} {l : List Char} {c : Char}
    {t : List Char} (h : l.dropWhile p = c :: t) : p c = false := by
  induction l with
  | nil => simp at h
  | cons x xs ih =>
    by_cases hx : p x
    · rw [List.dropWhile_cons_of_pos hx] at h
      exact ih h
    · rw [List.dropWhile_cons_of_neg hx] at h
      rcases h with ⟨rfl, rfl⟩
      exact Bool.of_not_eq_true hx

theorem pyStrip_decomp (s : List Char) :
    s.dropWhile isWs
      = pyStrip s ++ (((s.dropWhile isWs).reverse.takeWhile isWs)).reverse := by
  rw [pyStrip]
  conv_lhs => rw [← List.reverse_reverse (s.dropWhile isWs),
    ← List.takeWhile_append_dropWhile (p := isWs) (l := (s.dropWhile isWs).reverse)]
  rw [List.reverse_append]

theorem pyStrip_dropWhile (s : List Char) :
    (pyStrip s).dropWhile isWs = pyStrip s := by
  rw [pyStrip]
  rcases hu : s.dropWhile isWs with _ | ⟨c0, t0⟩
  · rfl
  · have hc0 : isWs c0 = false := dropWhile_head_not hu
    rcases hw : (c0 :: t0).reverse.dropWhile isWs with _ | ⟨c, t⟩
    · rfl
    · have hr := (List.takeWhile_append_dropWhile (p := isWs)
        (l := (c0 :: t0).reverse)).symm
      rw [hw] at hr
      have h1 : ((c0 :: t0).reverse).getLast? = some c0 := by
        rw [List.getLast?_reverse]
        rfl
      rw [hr, getLast?_append_right (by simp)] at h1
      have hh : ((c :: t).reverse).head? = some c0 := by
        rw [List.head?_reverse]
        exact h1
      rcases hrev : (c :: t).reverse with _ | ⟨d, ds⟩
      · simp at hrev
      · rw [hrev] at hh
        have hd : d = c0 := Option.some.inj hh
        rw [List.dropWhile_cons_of_neg (by rw [hd, hc0]; simp)]

theorem pyStrip_idem (s : List Char) : pyStrip (pyStrip s) = pyStrip s := by
  conv_lhs => rw [pyStrip]
  rw [pyStrip_dropWhile]
  conv_lhs => rw [pyStrip]
  rw [List.reverse_reverse, dropWhile_idem, pyStrip]

theorem tryViaHere_congr {x y : List Char}
    (h : x.dropWhile isWs = y.dropWhile isWs) : tryViaHere x = tryViaHere y := by
  rw [tryViaHere, tryViaHere, h]

theorem tryViaHere_append {u : List Char} {r : List Char}
    (h : tryViaHere u = some r) (w : List Char) :
    ∃ r', tryViaHere (u ++ w) = some r' := by
  rw [tryViaHere] at h
  split at h
  · rename_i a b c rest heq
    split at h
    · rename_i hp
      split at h
      · rename_i d rest2
        split at h
        · rename_i hdws
          have ha : (u ++ w).dropWhile isWs = a :: (b :: c :: d :: rest2 ++ w) :=
            dropWhile_append_pos heq w
          refine ⟨List.dropWhile isWs (d :: (rest2 ++ w)), ?_⟩
          rw [tryViaHere, ha]
          show (if (a.toLower = 'v' && b.toLower = 'i' && c.toLower = 'a') = true
              then (if isWs d = true
                then some (List.dropWhile isWs (d :: (rest2 ++ w))) else none)
              else none) = some (List.dropWhile isWs (d :: (rest2 ++ w)))
          rw [if_pos hp, if_pos hdws]
        · exact Option.noConfusion h
      · exact Option.noConfusion h
    · exact Option.noConfusion h
  · exact Option.noConfusion h

theorem wsSuffixOk_tail {c : Char} {t : List Char}
    (h : wsSuffixOk (c :: t) = true) : wsSuffixOk t = true := by
  simp only [wsSuffixOk, Bool.and_eq_true] at h
  exact h.2

theorem wsSuffixOk_head {c : Char} {t : List Char}
    (h : wsSuffixOk (c :: t) = true) (hws : isWs c = true) :
    tryViaHere (c :: t) = none ∧ viaTriple ((c :: t).dropWhile isWs) = false := by
  simp only [wsSuffixOk, hws, if_true, Bool.and_eq_true,
    Option.isNone_iff_eq_none, Bool.not_eq_true'] at h
  exact ⟨h.1.1, h.1.2⟩

theorem wsSuffixOk_dropWhile {l : List Char} (h : wsSuffixOk l = true) :
    wsSuffixOk (l.dropWhile isWs) = true := by
  induction l with
  | nil => exact h
  | cons c t ih =>
    by_cases hc : isWs c = true
    · rw [List.dropWhile_cons_of_pos hc]
      exact ih (wsSuffixOk_tail h)
    · rw [List.dropWhile_cons_of_neg (by simpa using hc)]
      exact h

theorem noTrailWsB_dropWhile {l : List Char} (h : noTrailWsB l = true) :
    noTrailWsB (l.dropWhile isWs) = true := by
  rcases hd : l.dropWhile isWs with _ | ⟨c, t⟩
  · rfl
  · have hl := (List.takeWhile_append_dropWhile (p := isWs) (l := l)).symm
    rw [hd] at hl
    have hgl : l.getLast? = (c :: t).getLast? := by
      rw [hl]
      exact getLast?_append_right (by simp)
    rw [noTrailWsB] at h ⊢
    rw [← hgl]
    exact h

theorem pyStrip_eq_dropWhile {s : List Char} (h : noTrailWsB s = true) :
    pyStrip s = s.dropWhile isWs := by
  rw [pyStrip]
  rcases hu : s.dropWhile isWs with _ | ⟨c, t⟩
  · rfl
  · have hl := (List.takeWhile_append_dropWhile (p := isWs) (l := s)).symm
    rw [hu] at hl
    have hgl : s.getLast? = (c :: t).getLast? := by
      rw [hl]
      exact getLast?_append_right (by simp)
    rcases hx : (c :: t).getLast? with _ | x
    · rw [List.getLast?_eq_none_iff] at hx
      cases hx
    · have hxw : isWs x = false := by
        rw [noTrailWsB, hgl, hx] at h
        simpa using h
      have hh : ((c :: t).reverse).head? = some x := by
        rw [List.head?_reverse]
        exact hx
      rcases hrev : (c :: t).reverse with _ | ⟨d, ds⟩
      · simp at hrev
      · rw [hrev] at hh
        have hdx : d = x := Option.some.inj hh
        rw [List.dropWhile_cons_of_neg (by rw [hdx, hxw]; simp),
          ← hrev, List.reverse_reverse]

theorem tryViaHere_of_shape {x : List Char} {a b c d : Char} {m : List Char}
    (hdw : x.dropWhile isWs = a :: b :: c :: d :: m)
    (hp : (a.toLower = 'v' && b.toLower = 'i' && c.toLower = 'a') = true)
    (hd : isWs d = true) :
    tryViaHere x = some (List.dropWhile isWs (d :: m)) := by
  rw [tryViaHere, hdw]
  show (if (a.toLower = 'v' && b.toLower = 'i' && c.toLower = 'a') = true
      then (if isWs d = true then some (List.dropWhile isWs (d :: m)) else none)
      else none) = some (List.dropWhile isWs (d :: m))
  rw [if_pos hp, if_pos hd]

theorem viaTriple_eq {l : List Char} (h : viaTriple l = true) :
    ∃ x y z, l = [x, y, z]
      ∧ (x.toLower = 'v' && y.toLower = 'i' && z.toLower = 'a') = true := by
  rcases l with _ | ⟨x, _ | ⟨y, _ | ⟨z, _ | ⟨w, t⟩⟩⟩⟩
  · cases h
  · cases h
  · cases h
  · exact ⟨x, y, z, rfl, h⟩
  · cases h

theorem findViaSplit_sound :
    ∀ s d v : List Char, findViaSplit s = some (d, v) →
      wsSuffixOk d = true ∧ noTrailWsB d = true ∧ findViaSplit d = none ∧
      ∃ w m, s = d ++ w :: m ∧ isWs w = true ∧ tryViaHere (w :: m) = some v := by
  intro s
  induction s with
  | nil => intro d v h; exact Option.noConfusion h
  | cons c rest ih =>
    intro d v h
    rw [findViaSplit] at h
    by_cases hws : isWs c = true
    · rw [if_pos (by simpa using hws)] at h
      split at h
      · rename_i tail ht
        have hp := Option.some.inj h
        injection hp with h1 h2
        subst h1
        subst h2
        exact ⟨rfl, rfl, rfl, c, rest, rfl, hws, ht⟩
      · rename_i ht
        rcases Option.map_eq_some'.mp h with ⟨⟨q1, q2⟩, hfr, hpair⟩
        injection hpair with h1 h2
        subst h1
        subst h2
        obtain ⟨hok, hnt, hnone, w, m, hsm, hwsw, htw⟩ := ih q1 q2 hfr
        rcases q1 with _ | ⟨y, q1'⟩
        · exfalso
          rw [List.nil_append] at hsm
          have hcong : tryViaHere (c :: rest) = tryViaHere rest :=
            tryViaHere_congr (List.dropWhile_cons_of_pos (by simpa using hws))
          rw [hsm] at ht hcong
          rw [ht, htw] at hcong
          exact Option.noConfusion hcong
        · have htv : tryViaHere (c :: y :: q1') = none := by
            rcases ho : tryViaHere (c :: y :: q1') with _ | r
            · rfl
            · exfalso
              obtain ⟨r', hr'⟩ := tryViaHere_append ho (w :: m)
              rw [show (c :: y :: q1') ++ (w :: m) = c :: rest by
                rw [hsm]; simp] at hr'
              rw [ht] at hr'
              cases hr'
          have hvt : viaTriple ((c :: y :: q1').dropWhile isWs) = false := by
            rcases hvt0 : viaTriple ((c :: y :: q1').dropWhile isWs) with _ | _
            · rfl
            · exfalso
              obtain ⟨x0, y0, z0, hxyz, hpat⟩ := viaTriple_eq hvt0
              have hdw : (c :: rest).dropWhile isWs
                  = x0 :: y0 :: z0 :: w :: m := by
                have h1 : (c :: rest) = (c :: y :: q1') ++ (w :: m) := by
                  rw [hsm]; simp
                rw [h1, dropWhile_append_pos hxyz]
                rfl
              have := tryViaHere_of_shape hdw hpat hwsw
              rw [ht] at this
              cases this
          refine ⟨?_, ?_, ?_, w, m, ?_, hwsw, htw⟩
          · rw [wsSuffixOk, if_pos hws]
            simp [htv, hvt, hok]
          · rw [noTrailWsB, List.getLast?_cons_cons]
            rw [noTrailWsB] at hnt
            exact hnt
          · rw [findViaSplit, if_pos (by simpa using hws), htv, hnone]
            rfl
          · rw [hsm]; simp
    · rw [if_neg (by simpa using hws)] at h
      rcases Option.map_eq_some'.mp h with ⟨⟨q1, q2⟩, hfr, hpair⟩
      injection hpair with h1 h2
      subst h1
      subst h2
      obtain ⟨hok, hnt, hnone, w, m, hsm, hwsw, htw⟩ := ih q1 q2 hfr
      refine ⟨?_, ?_, ?_, w, m, ?_, hwsw, htw⟩
      · rw [wsSuffixOk, if_neg hws]
        simp [hok]
      · rcases q1 with _ | ⟨y, q1'⟩
        · rw [noTrailWsB]
          simp only [List.getLast?_singleton]
          simpa using hws
        · rw [noTrailWsB, List.getLast?_cons_cons]
          rw [noTrailWsB] at hnt
          exact hnt
      · rw [findViaSplit, if_neg (by simpa using hws), hnone]
        rfl
      · rw [hsm]; simp

theorem findViaSplit_rebuild (V : List Char) (hV : V.dropWhile isWs = V) :
    ∀ p1 : List Char, wsSuffixOk p1 = true → noTrailWsB p1 = true →
      findViaSplit (p1 ++ ' ' :: 'v' :: 'i' :: 'a' :: ' ' :: V)
        = some (p1, V) := by
  intro p1
  induction p1 with
  | nil =>
    intro _ _
    rw [List.nil_append, findViaSplit, if_pos (show isWs ' ' = true by decide)]
    have ht : tryViaHere (' ' :: 'v' :: 'i' :: 'a' :: ' ' :: V)
        = some (List.dropWhile isWs (' ' :: V)) :=
      tryViaHere_of_shape
        (show (' ' :: 'v' :: 'i' :: 'a' :: ' ' :: V).dropWhile isWs
            = 'v' :: 'i' :: 'a' :: ' ' :: V from by
          rw [List.dropWhile_cons_of_pos (by decide),
            List.dropWhile_cons_of_neg (by decide)])
        (by decide) (by decide)
    rw [ht]
    show some (([] : List Char), List.dropWhile isWs (' ' :: V)) = some ([], V)
    rw [List.dropWhile_cons_of_pos (by decide), hV]
  | cons c q1 ih =>
    intro hok hnt
    have hnt' : noTrailWsB q1 = true ∨ q1 = [] := by
      rcases q1 with _ | ⟨y, q1'⟩
      · exact Or.inr rfl
      · left
        rw [noTrailWsB, List.getLast?_cons_cons] at hnt
        rw [noTrailWsB]
        exact hnt
    rw [List.cons_append, findViaSplit]
    by_cases hws : isWs c = true
    · rw [if_pos (by simpa using hws)]
      obtain ⟨htv, hvt⟩ := wsSuffixOk_head hok hws
      have hvt' : viaTriple (q1.dropWhile isWs) = false := by
        rw [← List.dropWhile_cons_of_pos (p := isWs) (l := q1) (a := c)
          (by simpa using hws)]
        exact hvt
      have htv' : ∀ r, tryViaHere (c :: q1) = some r → False := by
        intro r hr
        rw [htv] at hr
        exact Option.noConfusion hr
      have hcrux : tryViaHere (c :: (q1 ++ ' ' :: 'v' :: 'i' :: 'a' :: ' ' :: V))
          = none := by
        have hdrop : (c :: (q1 ++ ' ' :: 'v' :: 'i' :: 'a' :: ' ' :: V)).dropWhile isWs
            = (q1 ++ ' ' :: 'v' :: 'i' :: 'a' :: ' ' :: V).dropWhile isWs :=
          List.dropWhile_cons_of_pos (by simpa using hws)
        rcases hq : q1.dropWhile isWs with _ | ⟨x, xs⟩
        · -- q1 is all whitespace: the trailing character of c :: q1 is
          -- whitespace, contradicting noTrailWsB
          exfalso
          have hall : ∀ a ∈ c :: q1, isWs a = true := by
            intro a ha
            rcases List.mem_cons.mp ha with rfl | ha'
            · exact hws
            · exact List.dropWhile_eq_nil_iff.mp hq a ha'
          rcases hgl : (c :: q1).getLast? with _ | l0
          · rw [List.getLast?_eq_none_iff] at hgl
            cases hgl
          · have hmem : l0 ∈ c :: q1 := by
              obtain ⟨hne, heq⟩ :=
                List.mem_getLast?_eq_getLast (l := c :: q1) (x := l0) hgl
              rw [heq]
              exact List.getLast_mem hne
            rw [noTrailWsB, hgl] at hnt
            have hred : (!isWs l0) = true := hnt
            rw [hall l0 hmem] at hred
            cases hred
        · have hdq : (q1 ++ ' ' :: 'v' :: 'i' :: 'a' :: ' ' :: V).dropWhile isWs
              = x :: (xs ++ ' ' :: 'v' :: 'i' :: 'a' :: ' ' :: V) :=
            dropWhile_append_pos hq _
          rcases xs with _ | ⟨y2, xs2⟩
          · rw [tryViaHere, hdrop, hdq]
            show (if (x.toLower = 'v' && ' '.toLower = 'i' && 'v'.toLower = 'a')
                  = true
                then (if isWs 'i' = true
                  then some (List.dropWhile isWs ('i' :: 'a' :: ' ' :: V))
                  else none)
                else none) = none
            rw [if_neg (by simp)]
          · rcases xs2 with _ | ⟨y3, xs3⟩
            · rw [tryViaHere, hdrop, hdq]
              show (if (x.toLower = 'v' && y2.toLower = 'i' && ' '.toLower = 'a')
                    = true
                  then (if isWs 'v' = true
                    then some (List.dropWhile isWs ('v' :: 'i' :: 'a' :: ' ' :: V))
                    else none)
                  else none) = none
              rw [if_neg (by simp)]
            · by_cases hC : (x.toLower = 'v' && y2.toLower = 'i'
                  && y3.toLower = 'a') = true
              · rcases xs3 with _ | ⟨d4, xs4⟩
                · exfalso
                  rw [hq] at hvt'
                  rw [show viaTriple [x, y2, y3]
                      = (x.toLower = 'v' && y2.toLower = 'i' && y3.toLower = 'a')
                      from rfl, hC] at hvt'
                  cases hvt'
                · by_cases hd4 : isWs d4 = true
                  · exact absurd
                      (tryViaHere_of_shape
                        (show (c :: q1).dropWhile isWs
                            = x :: y2 :: y3 :: d4 :: xs4 from by
                          rw [List.dropWhile_cons_of_pos (by simpa using hws), hq])
                        hC hd4)
                      (fun hr => htv' _ hr)
                  · rw [tryViaHere, hdrop, hdq]
                    show (if (x.toLower = 'v' && y2.toLower = 'i'
                          && y3.toLower = 'a') = true
                        then (if isWs d4 = true
                          then some (List.dropWhile isWs
                            (d4 :: (xs4 ++ ' ' :: 'v' :: 'i' :: 'a' :: ' ' :: V)))
                          else none)
                        else none) = none
                    rw [if_pos hC, if_neg hd4]
              · rw [tryViaHere, hdrop, hdq]
                show (if (x.toLower = 'v' && y2.toLower = 'i'
                      && y3.toLower = 'a') = true
                    then (match xs3 ++ ' ' :: 'v' :: 'i' :: 'a' :: ' ' :: V with
                      | d :: rest2 =>
                        if isWs d = true
                        then some (List.dropWhile isWs (d :: rest2)) else none
                      | [] => none)
                    else none) = none
                rw [if_neg hC]
      rw [hcrux]
      show (findViaSplit (q1 ++ ' ' :: 'v' :: 'i' :: 'a' :: ' ' :: V)).map
          (fun p => (c :: p.1, p.2)) = some (c :: q1, V)
      rcases hnt' with hnt'' | rfl
      · rw [ih (wsSuffixOk_tail hok) hnt'']
        rfl
      · exfalso
        rw [noTrailWsB] at hnt
        simp only [List.getLast?_singleton] at hnt
        rw [hws] at hnt
        cases hnt
    · rw [if_neg (by simpa using hws)]
      rcases hnt' with hnt'' | rfl
      · rw [ih (wsSuffixOk_tail hok) hnt'']
        rfl
      · rw [ih (wsSuffixOk_tail hok) rfl]
        rfl

theorem findViaSplit_append_none {u w : List Char}
    (h : findViaSplit (u ++ w) = none) : findViaSplit u = none := by
  induction u with
  | nil => rfl
  | cons c t ih =>
    rw [List.cons_append, findViaSplit] at h
    rw [findViaSplit]
    by_cases hws : isWs c = true
    · rw [if_pos (by simpa using hws)] at h ⊢
      split at h
      · exact Option.noConfusion h
      · rename_i ht
        have ht2 : tryViaHere (c :: t) = none := by
          rcases ho : tryViaHere (c :: t) with _ | r
          · rfl
          · obtain ⟨r', hr'⟩ := tryViaHere_append ho w
            rw [show (c :: t) ++ w = c :: (t ++ w) from rfl, ht] at hr'
            exact Option.noConfusion hr'
        rw [ht2]
        show (findViaSplit t).map (fun p => (c :: p.1, p.2)) = none
        have hft : findViaSplit t = none := by
          apply ih
          rcases hf : findViaSplit (t ++ w) with _ | p
          · rfl
          · rw [hf] at h
            simp at h
        rw [hft]
        rfl
    · rw [if_neg (by simpa using hws)] at h ⊢
      have hft : findViaSplit t = none := by
        apply ih
        rcases hf : findViaSplit (t ++ w) with _ | p
        · rfl
        · rw [hf] at h
          simp at h
      rw [hft]
      rfl

theorem findViaSplit_dropWhile_none {s : List Char}
    (h : findViaSplit s = none) :
    findViaSplit (s.dropWhile isWs) = none := by
  induction s with
  | nil => exact h
  | cons c t ih =>
    rw [findViaSplit] at h
    by_cases hws : isWs c = true
    · rw [if_pos (by simpa using hws)] at h
      rw [List.dropWhile_cons_of_pos (by simpa using hws)]
      apply ih
      split at h
      · exact Option.noConfusion h
      · rcases hf : findViaSplit t with _ | p
        · rfl
        · rw [hf] at h
          simp at h
    · rw [List.dropWhile_cons_of_neg (by simpa using hws), findViaSplit,
        if_neg (by simpa using hws)]
      rw [if_neg (by simpa using hws)] at h
      exact h

theorem findViaSplit_pyStrip_none {s : List Char}
    (h : findViaSplit s = none) : findViaSplit (pyStrip s) = none := by
  have h1 := findViaSplit_dropWhile_none h
  rw [pyStrip_decomp s] at h1
  exact findViaSplit_append_none h1

theorem lookup_overrides {k v : List Char}
    (h : TOWARDS_DISPLAY_OVERRIDES.lookup k = some v) :
    (k = "battersea power station".data ∧ v = "Battersea Power Station".data) ∨
    (k = "charing cross".data ∧ v = "Charing Cross".data) := by
  simp only [TOWARDS_DISPLAY_OVERRIDES, List.lookup] at h
  split at h
  · rename_i hbeq
    exact Or.inl ⟨by simpa using hbeq, (Option.some.inj h).symm⟩
  · split at h
    · rename_i hbeq
      exact Or.inr ⟨by simpa using hbeq, (Option.some.inj h).symm⟩
    · exact Option.noConfusion h

theorem isEmpty_false_of_ne {l : List Char} (h : l ≠ []) :
    l.isEmpty = false := by
  rcases l with _ | ⟨c, t⟩
  · exact absurd rfl h
  · rfl

theorem canonicalize_of_none {value : List Char}
    (h : findViaSplit value = none) :
    canonicalize_display_destination value =
      ((TOWARDS_DISPLAY_OVERRIDES.lookup
          (((build_alias_canonical_map get_towards_aliases).lookup
              (normalize_name (pyStrip value))).getD
            (normalize_name (pyStrip value)))).getD
        (pyStrip (pyStrip value))) := by
  rw [canonicalize_display_destination, split_destination_via, h]
  rfl

theorem canonicalize_of_some {value d v : List Char}
    (h : findViaSplit value = some (d, v)) (hv : pyStrip v ≠ []) :
    canonicalize_display_destination value =
      ((TOWARDS_DISPLAY_OVERRIDES.lookup
          (((build_alias_canonical_map get_towards_aliases).lookup
              (normalize_name (pyStrip d))).getD
            (normalize_name (pyStrip d)))).getD
        (pyStrip (pyStrip d)))
      ++ " via ".data ++
      ((TOWARDS_DISPLAY_OVERRIDES.lookup
          (((build_alias_canonical_map get_towards_aliases).lookup
              (normalize_name (pyStrip v))).getD
            (normalize_name (pyStrip v)))).getD
        (pyStrip (pyStrip v))) := by
  have hvf : (pyStrip v).isEmpty = false := isEmpty_false_of_ne hv
  have hvd : ((TOWARDS_DISPLAY_OVERRIDES.lookup
      (((build_alias_canonical_map get_towards_aliases).lookup
          (normalize_name (pyStrip v))).getD
        (normalize_name (pyStrip v)))).getD
      (pyStrip (pyStrip v))).isEmpty = false := by
    rcases hl : TOWARDS_DISPLAY_OVERRIDES.lookup
        (((build_alias_canonical_map get_towards_aliases).lookup
            (normalize_name (pyStrip v))).getD
          (normalize_name (pyStrip v))) with _ | ov
    · rw [Option.getD_none, pyStrip_idem]
      exact hvf
    · rw [Option.getD_some]
      rcases lookup_overrides hl with ⟨_, rfl⟩ | ⟨_, rfl⟩ <;> rfl
  rw [canonicalize_display_destination, split_destination_via, h]
  show (if (if (pyStrip v).isEmpty = true then ([] : List Char)
        else ((TOWARDS_DISPLAY_OVERRIDES.lookup
            (((build_alias_canonical_map get_towards_aliases).lookup
                (normalize_name (pyStrip v))).getD
              (normalize_name (pyStrip v)))).getD
          (pyStrip (pyStrip v)))).isEmpty = true
      then ((TOWARDS_DISPLAY_OVERRIDES.lookup
          (((build_alias_canonical_map get_towards_aliases).lookup
              (normalize_name (pyStrip d))).getD
            (normalize_name (pyStrip d)))).getD
        (pyStrip (pyStrip d)))
      else ((TOWARDS_DISPLAY_OVERRIDES.lookup
          (((build_alias_canonical_map get_towards_aliases).lookup
              (normalize_name (pyStrip d))).getD
            (normalize_name (pyStrip d)))).getD
        (pyStrip (pyStrip d)))
        ++ " via ".data ++
        (if (pyStrip v).isEmpty = true then ([] : List Char)
        else ((TOWARDS_DISPLAY_OVERRIDES.lookup
            (((build_alias_canonical_map get_towards_aliases).lookup
                (normalize_name (pyStrip v))).getD
              (normalize_name (pyStrip v)))).getD
          (pyStrip (pyStrip v))))) = _
  simp [hvf, hvd]

theorem canonicalize_of_some_novia {value d v : List Char}
    (h : findViaSplit value = some (d, v)) (hv : pyStrip v = []) :
    canonicalize_display_destination value =
      ((TOWARDS_DISPLAY_OVERRIDES.lookup
          (((build_alias_canonical_map get_towards_aliases).lookup
              (normalize_name (pyStrip d))).getD
            (normalize_name (pyStrip d)))).getD
        (pyStrip (pyStrip d))) := by
  rw [canonicalize_display_destination, split_destination_via, h]
  show (if (if (pyStrip v).isEmpty = true then ([] : List Char)
        else ((TOWARDS_DISPLAY_OVERRIDES.lookup
            (((build_alias_canonical_map get_towards_aliases).lookup
                (normalize_name (pyStrip v))).getD
              (normalize_name (pyStrip v)))).getD
          (pyStrip (pyStrip v)))).isEmpty = true
      then ((TOWARDS_DISPLAY_OVERRIDES.lookup
          (((build_alias_canonical_map get_towards_aliases).lookup
              (normalize_name (pyStrip d))).getD
            (normalize_name (pyStrip d)))).getD
        (pyStrip (pyStrip d)))
      else ((TOWARDS_DISPLAY_OVERRIDES.lookup
          (((build_alias_canonical_map get_towards_aliases).lookup
              (normalize_name (pyStrip d))).getD
            (normalize_name (pyStrip d)))).getD
        (pyStrip (pyStrip d)))
        ++ " via ".data ++
        (if (pyStrip v).isEmpty = true then ([] : List Char)
        else ((TOWARDS_DISPLAY_OVERRIDES.lookup
            (((build_alias_canonical_map get_towards_aliases).lookup
                (normalize_name (pyStrip v))).getD
              (normalize_name (pyStrip v)))).getD
          (pyStrip (pyStrip v))))) = _
  rw [hv]
  rfl

theorem via_concat_fixed {D V : List Char}
    (hDok : wsSuffixOk D = true) (hDnt : noTrailWsB D = true)
    (hDstrip : pyStrip D = D)
    (hDfix : ((TOWARDS_DISPLAY_OVERRIDES.lookup
        (((build_alias_canonical_map get_towards_aliases).lookup
            (normalize_name D)).getD (normalize_name D))).getD D) = D)
    (hVstrip : pyStrip V = V) (hVne : V ≠ [])
    (hVdw : V.dropWhile isWs = V)
    (hVfix : ((TOWARDS_DISPLAY_OVERRIDES.lookup
        (((build_alias_canonical_map get_towards_aliases).lookup
            (normalize_name V)).getD (normalize_name V))).getD V) = V) :
    canonicalize_display_destination (D ++ " via ".data ++ V)
      = D ++ " via ".data ++ V := by
  have hJ : D ++ " via ".data ++ V = D ++ ' ' :: 'v' :: 'i' :: 'a' :: ' ' :: V := by
    rw [List.append_assoc]
    rfl
  have hsplit : findViaSplit (D ++ ' ' :: 'v' :: 'i' :: 'a' :: ' ' :: V)
      = some (D, V) := findViaSplit_rebuild V hVdw D hDok hDnt
  rw [hJ]
  rw [canonicalize_of_some hsplit (by rw [hVstrip]; exact hVne)]
  simp only [hDstrip, hVstrip]
  rw [hDfix, hVfix]
  exact hJ

/-- C8: `canonicalize_display_destination` is idempotent on every string. -/
theorem C8_canonicalize_display_destination_idempotent (value : List Char) :
    canonicalize_display_destination (canonicalize_display_destination value)
      = canonicalize_display_destination value := by
  rcases hfv : findViaSplit value with _ | ⟨d, v⟩
  · rw [canonicalize_of_none hfv]
    rcases hov : TOWARDS_DISPLAY_OVERRIDES.lookup
        (((build_alias_canonical_map get_towards_aliases).lookup
            (normalize_name (pyStrip value))).getD
          (normalize_name (pyStrip value))) with _ | ov
    · rw [Option.getD_none, pyStrip_idem]
      rw [canonicalize_of_none (findViaSplit_pyStrip_none hfv)]
      simp only [pyStrip_idem]
      rw [hov, Option.getD_none]
    · rw [Option.getD_some]
      rcases lookup_overrides hov with ⟨_, rfl⟩ | ⟨_, rfl⟩
      · decide
      · decide
  · obtain ⟨hok, hnt, hnone, -⟩ := findViaSplit_sound value d v hfv
    by_cases hvv : pyStrip v = []
    · rw [canonicalize_of_some_novia hfv hvv]
      rcases hovd : TOWARDS_DISPLAY_OVERRIDES.lookup
          (((build_alias_canonical_map get_towards_aliases).lookup
              (normalize_name (pyStrip d))).getD
            (normalize_name (pyStrip d))) with _ | ovd
      · rw [Option.getD_none, pyStrip_idem]
        rw [canonicalize_of_none (findViaSplit_pyStrip_none hnone)]
        simp only [pyStrip_idem]
        rw [hovd, Option.getD_none]
      · rw [Option.getD_some]
        rcases lookup_overrides hovd with ⟨_, rfl⟩ | ⟨_, rfl⟩
        · decide
        · decide
    · rw [canonicalize_of_some hfv hvv]
      have hDpack : ∃ DD, ((TOWARDS_DISPLAY_OVERRIDES.lookup
          (((build_alias_canonical_map get_towards_aliases).lookup
              (normalize_name (pyStrip d))).getD
            (normalize_name (pyStrip d)))).getD
          (pyStrip (pyStrip d))) = DD ∧
          wsSuffixOk DD = true ∧ noTrailWsB DD = true ∧ pyStrip DD = DD ∧
          ((TOWARDS_DISPLAY_OVERRIDES.lookup
            (((build_alias_canonical_map get_towards_aliases).lookup
                (normalize_name DD)).getD (normalize_name DD))).getD DD)
            = DD := by
        rcases hovd : TOWARDS_DISPLAY_OVERRIDES.lookup
            (((build_alias_canonical_map get_towards_aliases).lookup
                (normalize_name (pyStrip d))).getD
              (normalize_name (pyStrip d))) with _ | ovd
        · refine ⟨pyStrip d, ?_, ?_, ?_, pyStrip_idem d, ?_⟩
          · rw [Option.getD_none, pyStrip_idem]
          · rw [pyStrip_eq_dropWhile hnt]
            exact wsSuffixOk_dropWhile hok
          · rw [pyStrip_eq_dropWhile hnt]
            exact noTrailWsB_dropWhile hnt
          · rw [hovd, Option.getD_none]
        · rcases lookup_overrides hovd with ⟨_, rfl⟩ | ⟨_, rfl⟩
          · exact ⟨_, by rw [Option.getD_some], by decide, by decide,
              by decide, by decide⟩
          · exact ⟨_, by rw [Option.getD_some], by decide, by decide,
              by decide, by decide⟩
      have hVpack : ∃ VV, ((TOWARDS_DISPLAY_OVERRIDES.lookup
          (((build_alias_canonical_map get_towards_aliases).lookup
              (normalize_name (pyStrip v))).getD
            (normalize_name (pyStrip v)))).getD
          (pyStrip (pyStrip v))) = VV ∧
          pyStrip VV = VV ∧ VV ≠ [] ∧ VV.dropWhile isWs = VV ∧
          ((TOWARDS_DISPLAY_OVERRIDES.lookup
            (((build_alias_canonical_map get_towards_aliases).lookup
                (normalize_name VV)).getD (normalize_name VV))).getD VV)
            = VV := by
        rcases hovv : TOWARDS_DISPLAY_OVERRIDES.lookup
            (((build_alias_canonical_map get_towards_aliases).lookup
                (normalize_name (pyStrip v))).getD
              (normalize_name (pyStrip v))) with _ | ovv
        · refine ⟨pyStrip v, ?_, pyStrip_idem v, hvv, pyStrip_dropWhile v, ?_⟩
          · rw [Option.getD_none, pyStrip_idem]
          · rw [hovv, Option.getD_none]
        · rcases lookup_overrides hovv with ⟨_, rfl⟩ | ⟨_, rfl⟩
          · exact ⟨_, by rw [Option.getD_some], by decide, by decide,
              by decide, by decide⟩
          · exact ⟨_, by rw [Option.getD_some], by decide, by decide,
              by decide, by decide⟩
      obtain ⟨DD, hDeq, hDok, hDnt, hDstrip, hDfix⟩ := hDpack
      obtain ⟨VV, hVeq, hVstrip, hVne, hVdw, hVfix⟩ := hVpack
      rw [hDeq, hVeq]
      exact via_concat_fixed hDok hDnt hDstrip hDfix hVstrip hVne hVdw hVfix

end TubeTiming
